import Mathlib

/-!
# String hasher of V8 (`src/strings/string-hasher-inl.h`)

A shallow embedding of `StringHasher::AddCharacterCore`, `GetHashCore`,
`GetTrivialHash` and `HashSequentialString`, and theorems about them.

Machine integers are natural numbers reduced modulo `2 ^ 32` (or `2 ^ 64`) wherever
the C++ arithmetic can wrap; the two signed `int32_t` temporaries of `GetHashCore`
are integers.  A character sequence is a list of code units (values of the unsigned
character type, below `2 ^ 16`), and the `length` argument is the length of that list.

The packed-field layout (`String::HashBits`, `HashFieldType`, the array-index bit
ranges, the length thresholds, `kZeroHash`) is declared in headers that are not part
of the sources at hand, so it is a parameter: the structure `Layout`.
-/

namespace V8

/-! ## The field layout (parameters) -/

/-- Modelled from the spec: a bit range of the packed field (`base::BitField`, declared
outside the sources at hand), given by the position of its lowest bit and its width. -/
structure BitField where
  /-- Position of the lowest bit of the range. -/
  kShift : Nat
  /-- Width of the range in bits. -/
  kSize : Nat
  deriving DecidableEq

namespace BitField

/-- Modelled from the spec: the largest value a bit range can hold, `2 ^ kSize - 1`. -/
def kMax (b : BitField) : Nat := 2 ^ b.kSize - 1

/-- Modelled from the spec: the bits of a range inside the 32-bit field. -/
def kMask (b : BitField) : Nat := (b.kMax <<< b.kShift) % 2 ^ 32

/-- Modelled from the spec: decoding a bit range out of a field value. -/
def decode (b : BitField) (value : Nat) : Nat := (value &&& b.kMask) >>> b.kShift

end BitField

/-- Modelled from the spec: the type discriminant `String::HashFieldType`; these are the
two variants that `HashSequentialString` names. -/
inductive HashFieldType where
  | kHash
  | kIntegerIndex
  deriving DecidableEq

/-- Modelled from the spec: the constants of the packed-field layout and the length
thresholds, which are declared outside the sources at hand (`String::...`, `Name::...`,
`StringHasher::kZeroHash`, `V8_HOST_ARCH_64_BIT`). -/
structure Layout where
  /-- Bit range of the type tag (`String::HashFieldTypeBits`). -/
  HashFieldTypeBits : BitField
  /-- Bit range of the hash payload (`String::HashBits`). -/
  HashBits : BitField
  /-- Bit range of a cached array-index value (`String::ArrayIndexValueBits`). -/
  ArrayIndexValueBits : BitField
  /-- Bit range of a cached array-index length (`String::ArrayIndexLengthBits`). -/
  ArrayIndexLengthBits : BitField
  /-- Numeric value of `HashFieldType::kHash`. -/
  kHashValue : Nat
  /-- Numeric value of `HashFieldType::kIntegerIndex`. -/
  kIntegerIndexValue : Nat
  /-- The hash used instead of zero (`StringHasher::kZeroHash`). -/
  kZeroHash : Nat
  /-- Longest string that can be an array index (`String::kMaxArrayIndexSize`). -/
  kMaxArrayIndexSize : Nat
  /-- Longest string that can be an integer index (`String::kMaxIntegerIndexSize`). -/
  kMaxIntegerIndexSize : Nat
  /-- Longest string whose characters are hashed (`String::kMaxHashCalcLength`). -/
  kMaxHashCalcLength : Nat
  /-- Longest array-index string whose index is cached in the field
  (`String::kMaxCachedArrayIndexLength`). -/
  kMaxCachedArrayIndexLength : Nat
  /-- Largest integer index (`kMaxSafeIntegerUint64`). -/
  kMaxSafeIntegerUint64 : Nat
  /-- Whether the host has 64-bit words (`V8_HOST_ARCH_64_BIT`). -/
  V8_HOST_ARCH_64_BIT : Bool
  deriving DecidableEq

/-- Numeric value of a type discriminant, `static_cast<uint32_t>(type)`. -/
def Layout.typeValue (L : Layout) : HashFieldType → Nat
  | .kHash => L.kHashValue
  | .kIntegerIndex => L.kIntegerIndexValue

/-- Modelled from the spec: a concrete layout, the one of a 64-bit host, whose constants
are declared outside the sources at hand: a 2-bit type tag at bit 0 (`kHash = 2`,
`kIntegerIndex = 0`), 30 payload bits above it, of which an array index uses 24 for its
value and 6 for its length, `kZeroHash = 27`, and the thresholds 7, 10, 16 and 16383. -/
def x64Layout : Layout where
  HashFieldTypeBits := ⟨0, 2⟩
  HashBits := ⟨2, 30⟩
  ArrayIndexValueBits := ⟨2, 24⟩
  ArrayIndexLengthBits := ⟨26, 6⟩
  kHashValue := 2
  kIntegerIndexValue := 0
  kZeroHash := 27
  kMaxArrayIndexSize := 10
  kMaxIntegerIndexSize := 16
  kMaxHashCalcLength := 16383
  kMaxCachedArrayIndexLength := 7
  kMaxSafeIntegerUint64 := 9007199254740991
  V8_HOST_ARCH_64_BIT := true

/-- The static relations between the layout constants: the type tag occupies the lowest
bits, the hash payload fills the rest of the 32-bit field, the array-index value and
length ranges split the payload, the two type values are distinct tags and `kHash` is not
the zero tag, `kZeroHash` has a payload bit, the lengths `MaxCachedArrayIndexLength + 1`
and `MaxArrayIndexSize` fit the length bits, and the thresholds are ordered. -/
def Layout.WellFormed (L : Layout) : Prop :=
  L.HashFieldTypeBits.kShift = 0 ∧
  0 < L.HashFieldTypeBits.kSize ∧
  L.HashBits.kShift = L.HashFieldTypeBits.kSize ∧
  0 < L.HashBits.kSize ∧
  L.HashBits.kShift + L.HashBits.kSize = 32 ∧
  L.ArrayIndexValueBits.kShift = L.HashFieldTypeBits.kSize ∧
  L.ArrayIndexLengthBits.kShift =
    L.ArrayIndexValueBits.kShift + L.ArrayIndexValueBits.kSize ∧
  0 < L.ArrayIndexLengthBits.kSize ∧
  L.ArrayIndexLengthBits.kShift + L.ArrayIndexLengthBits.kSize = 32 ∧
  0 < L.kHashValue ∧
  L.kHashValue < 2 ^ L.HashFieldTypeBits.kSize ∧
  L.kIntegerIndexValue < 2 ^ L.HashFieldTypeBits.kSize ∧
  L.kIntegerIndexValue ≠ L.kHashValue ∧
  L.kZeroHash < 2 ^ 31 ∧
  L.kZeroHash &&& L.HashBits.kMax ≠ 0 ∧
  L.kMaxCachedArrayIndexLength + 1 < 2 ^ L.ArrayIndexLengthBits.kSize ∧
  L.kMaxArrayIndexSize < 2 ^ L.ArrayIndexLengthBits.kSize ∧
  L.kMaxArrayIndexSize ≤ L.kMaxIntegerIndexSize ∧
  L.kMaxIntegerIndexSize < L.kMaxHashCalcLength

instance (L : Layout) : Decidable L.WellFormed := by
  unfold Layout.WellFormed
  infer_instance

/-! ## Helpers declared outside the sources at hand -/

/-- Modelled from the spec: `IsDecimalDigit` (char-predicates), a code unit in
`'0'..'9'`. -/
def IsDecimalDigit (c : Nat) : Bool := decide (48 ≤ c) && decide (c ≤ 57)

/-- Modelled from the spec: the largest array index, `2 ^ 32 - 2`, the bound of the
array-index numeric range. -/
def kMaxArrayIndex : Nat := 4294967294

/-- Modelled from the spec: `TryAddArrayIndexChar` (utils): `index = index*10 + digit`,
failing on a non-digit or when the result would leave the array-index range. -/
def TryAddArrayIndexChar (index c : Nat) : Option Nat :=
  if IsDecimalDigit c then
    if index * 10 + (c - 48) ≤ kMaxArrayIndex then some (index * 10 + (c - 48)) else none
  else none

/-- Modelled from the spec: `TryAddIntegerIndexChar` (utils): extends a 64-bit index
accumulator by the digit, failing on a non-digit or beyond the integer-index limit. -/
def TryAddIntegerIndexChar (L : Layout) (index c : Nat) : Option Nat :=
  if IsDecimalDigit c then
    if (index * 10 + (c - 48)) % 2 ^ 64 ≤ L.kMaxSafeIntegerUint64 then
      some ((index * 10 + (c - 48)) % 2 ^ 64)
    else none
  else none

/-- Modelled from the spec: `String::CreateHashFieldValue`, which places the payload at
the offset of the hash bits (truncating to the 32-bit field) and the type tag at the
offset of the type bits. -/
def CreateHashFieldValue (L : Layout) (hash : Nat) (type : HashFieldType) : Nat :=
  ((hash <<< L.HashBits.kShift) % 2 ^ 32) |||
    ((L.typeValue type <<< L.HashFieldTypeBits.kShift) % 2 ^ 32)

/-- Modelled from the spec: `StringHasher::MakeArrayIndexHash`, the field with the index
in the array-index value bits and the length in the array-index length bits. -/
def MakeArrayIndexHash (L : Layout) (value length : Nat) : Nat :=
  ((value <<< L.ArrayIndexValueBits.kShift) % 2 ^ 32) |||
    ((length <<< L.ArrayIndexLengthBits.kShift) % 2 ^ 32)

/-- Modelled from the spec: `Name::kDoesNotContainCachedArrayIndexMask`: the type bits
and the length bits above those a cacheable length can use. -/
def kDoesNotContainCachedArrayIndexMask (L : Layout) : Nat :=
  (((2 ^ 32 - 1 - L.kMaxCachedArrayIndexLength % 2 ^ 32) <<<
      L.ArrayIndexLengthBits.kShift) % 2 ^ 32) ||| L.HashFieldTypeBits.kMask

/-- Modelled from the spec: `Name::ContainsCachedArrayIndex`, the predicate by which a
field looks like a cached array index: none of the bits of the mask is set. -/
def ContainsCachedArrayIndex (L : Layout) (raw_hash_field : Nat) : Bool :=
  raw_hash_field &&& kDoesNotContainCachedArrayIndexMask L == 0

/-- The type tag of a field: the value of its `HashFieldTypeBits` range. -/
def fieldType (L : Layout) (field : Nat) : Nat := L.HashFieldTypeBits.decode field

/-- The hash payload of a field: the value of its `HashBits` range. -/
def fieldHash (L : Layout) (field : Nat) : Nat := L.HashBits.decode field

/-! ## The functions of `string-hasher-inl.h` -/

/-- Conversion `static_cast<int32_t>` of a 32-bit value. -/
def toInt32 (x : Nat) : Int :=
  if x % 2 ^ 32 < 2 ^ 31 then ((x % 2 ^ 32 : Nat) : Int) else ((x % 2 ^ 32 : Nat) : Int) - 2 ^ 32

/-- Conversion of a signed value to `uint32_t`. -/
def toUint32 (z : Int) : Nat := (z % 2 ^ 32).toNat

/-- The function `StringHasher::AddCharacterCore`. -/
def AddCharacterCore (running_hash c : Nat) : Nat :=
  let r1 := (running_hash + c) % 2 ^ 32
  let r2 := (r1 + (r1 <<< 10) % 2 ^ 32) % 2 ^ 32
  r2 ^^^ (r2 >>> 6)

/-- The function `StringHasher::GetHashCore`.  `hash` and `mask` are the signed temporaries; the
bitwise `kZeroHash & mask` is taken on the 32-bit two's-complement representations. -/
def GetHashCore (L : Layout) (running_hash : Nat) : Nat :=
  let r1 := (running_hash + (running_hash <<< 3) % 2 ^ 32) % 2 ^ 32
  let r2 := r1 ^^^ (r1 >>> 11)
  let r3 := (r2 + (r2 <<< 15) % 2 ^ 32) % 2 ^ 32
  let hash : Int := toInt32 (r3 &&& L.HashBits.kMax)
  let mask : Int := (hash - 1) >>> (31 : Nat)
  r3 ||| (L.kZeroHash % 2 ^ 32 &&& toUint32 mask)

/-- The function `StringHasher::GetTrivialHash`. -/
def GetTrivialHash (L : Layout) (length : Nat) : Nat :=
  let hash := length
  CreateHashFieldValue L hash HashFieldType.kHash

/-- The `do ... while (TryAddArrayIndexChar(&index, chars[i++]))` loop of
`HashSequentialString` over the characters from position `i` on: `some` is the value
returned from inside the loop, `none` is leaving the loop. -/
def arrayIndexLoop (L : Layout) (length : Nat) : Nat → List Nat → Option Nat
  | index, [] => some (MakeArrayIndexHash L index length)
  | index, c :: rest =>
    match TryAddArrayIndexChar index c with
    | some index' => arrayIndexLoop L length index' rest
    | none => none

/-- The `while (chars != end)` loop of the integer-index block: the final `type` and
`running_hash`. -/
def integerIndexLoop (L : Layout) :
    HashFieldType → Nat → Nat → List Nat → HashFieldType × Nat
  | type, running_hash, _, [] => (type, running_hash)
  | HashFieldType.kIntegerIndex, running_hash, index_big, c :: rest =>
    match TryAddIntegerIndexChar L index_big c with
    | some index_big' =>
      integerIndexLoop L HashFieldType.kIntegerIndex (AddCharacterCore running_hash c)
        index_big' rest
    | none =>
      integerIndexLoop L HashFieldType.kHash (AddCharacterCore running_hash c)
        index_big rest
  | HashFieldType.kHash, running_hash, index_big, c :: rest =>
    integerIndexLoop L HashFieldType.kHash (AddCharacterCore running_hash c) index_big rest

/-- The integer-index block of `HashSequentialString` (the body of
`if (length <= String::kMaxIntegerIndexSize)`). -/
def integerIndexHash (L : Layout) (chars : List Nat) (seed : Nat) : Nat :=
  let r := integerIndexLoop L HashFieldType.kIntegerIndex (seed % 2 ^ 32) 0 chars
  let hash := CreateHashFieldValue L (GetHashCore L r.2) r.1
  if ContainsCachedArrayIndex L hash then
    hash ||| ((L.kMaxCachedArrayIndexLength + 1) <<< L.ArrayIndexLengthBits.kShift) % 2 ^ 32
  else hash

/-- The `while (chars != end)` loop of the non-index hash. -/
def hashLoop : Nat → List Nat → Nat
  | running_hash, [] => running_hash
  | running_hash, c :: rest => hashLoop (AddCharacterCore running_hash c) rest

/-- The non-index hash at the end of `HashSequentialString`. -/
def nonIndexHash (L : Layout) (chars : List Nat) (seed : Nat) : Nat :=
  CreateHashFieldValue L (GetHashCore L (hashLoop (seed % 2 ^ 32) chars)) HashFieldType.kHash

/-- The code of `HashSequentialString` after the index block, for `length >= 1`: the
trivial hash of an oversized string, the non-index hash otherwise. -/
def afterIndexBlock (L : Layout) (chars : List Nat) (seed : Nat) : Nat :=
  if chars.length > L.kMaxHashCalcLength then GetTrivialHash L chars.length
  else nonIndexHash L chars seed

/-- The function `StringHasher::HashSequentialString`; `length` is the length of
`chars`. -/
def HashSequentialString (L : Layout) (chars : List Nat) (seed : Nat) : Nat :=
  let length := chars.length
  match chars with
  | [] => nonIndexHash L chars seed
  | c0 :: rest =>
    if IsDecimalDigit c0 && (length == 1 || c0 != 48) then
      match (if length ≤ L.kMaxArrayIndexSize then arrayIndexLoop L length (c0 - 48) rest
             else none) with
      | some field => field
      | none =>
        if L.V8_HOST_ARCH_64_BIT && decide (length ≤ L.kMaxIntegerIndexSize) then
          integerIndexHash L chars seed
        else afterIndexBlock L chars seed
    else afterIndexBlock L chars seed

/-! ## Vocabulary of the properties -/

/-- The finishing avalanche of `GetHashCore`: `r += r << 3; r ^= r >> 11; r += r << 15`
in 32-bit arithmetic. -/
def finishingAvalanche (running_hash : Nat) : Nat :=
  let r1 := (running_hash + (running_hash <<< 3) % 2 ^ 32) % 2 ^ 32
  let r2 := r1 ^^^ (r1 >>> 11)
  (r2 + (r2 <<< 15) % 2 ^ 32) % 2 ^ 32


/-- The canonical decimal string of `n`, as code units: no leading zero, `"0"` for zero. -/
def decimalString (n : Nat) : List Nat :=
  if n = 0 then [48] else ((Nat.digits 10 n).reverse).map (fun d => d + 48)

/-- The decimal value of a digit string. -/
def decimalValue (chars : List Nat) : Nat :=
  chars.foldl (fun acc c => acc * 10 + (c - 48)) 0

/-- Whether the 64-bit index accumulation by `TryAddIntegerIndexChar` succeeds on every
character, starting from the accumulator `index_big`. -/
def integerIndexAccumulates (L : Layout) : Nat → List Nat → Bool
  | _, [] => true
  | index_big, c :: rest =>
    match TryAddIntegerIndexChar L index_big c with
    | some index_big' => integerIndexAccumulates L index_big' rest
    | none => false

/-- The signed temporary `mask` of `GetHashCore`, `(hash - 1) >> 31` for
`hash = static_cast<int32_t>(running_hash & String::HashBits::kMax)` taken after the
finishing avalanche. -/
def GetHashCoreMask (L : Layout) (running_hash : Nat) : Int :=
  (toInt32 (finishingAvalanche running_hash &&& L.HashBits.kMax) - 1) >>> (31 : Nat)

/-! ## The reads of `HashSequentialString`, with their bounds

The same function over a buffer `chars` and an explicit `length`, with every read of
`chars[i]` made through `chars[i]?`: the result is `none` as soon as a read is out of
range.  The loops count the characters that remain, `remaining = length - i`
(`end - chars` for the pointer loops). -/

/-- The `do ... while` loop of the array-index block, reading `chars[i]` for
`i = length - remaining`: the outer `none` is an out-of-range read, `some (some field)` is
the value returned from inside the loop, `some none` is leaving the loop. -/
def arrayIndexLoopChecked (L : Layout) (chars : List Nat) (length : Nat) :
    Nat → Nat → Nat → Option (Option Nat)
  | 0, index, _ => some (some (MakeArrayIndexHash L index length))
  | remaining + 1, index, i =>
    match chars[i]? with
    | none => none
    | some c =>
      match TryAddArrayIndexChar index c with
      | some index' => arrayIndexLoopChecked L chars length remaining index' (i + 1)
      | none => some none

/-- The `while (chars != end)` loop of the integer-index block, reading `chars[i]`; `none`
is an out-of-range read. -/
def integerIndexLoopChecked (L : Layout) (chars : List Nat) :
    Nat → HashFieldType → Nat → Nat → Nat → Option (HashFieldType × Nat)
  | 0, type, running_hash, _, _ => some (type, running_hash)
  | remaining + 1, type, running_hash, index_big, i =>
    match chars[i]? with
    | none => none
    | some c =>
      match type with
      | HashFieldType.kIntegerIndex =>
        match TryAddIntegerIndexChar L index_big c with
        | some index_big' =>
          integerIndexLoopChecked L chars remaining HashFieldType.kIntegerIndex
            (AddCharacterCore running_hash c) index_big' (i + 1)
        | none =>
          integerIndexLoopChecked L chars remaining HashFieldType.kHash
            (AddCharacterCore running_hash c) index_big (i + 1)
      | HashFieldType.kHash =>
        integerIndexLoopChecked L chars remaining HashFieldType.kHash
          (AddCharacterCore running_hash c) index_big (i + 1)

/-- The integer-index block, with checked reads. -/
def integerIndexHashChecked (L : Layout) (chars : List Nat) (length seed : Nat) :
    Option Nat :=
  match integerIndexLoopChecked L chars length HashFieldType.kIntegerIndex (seed % 2 ^ 32) 0 0
    with
  | none => none
  | some r =>
    let hash := CreateHashFieldValue L (GetHashCore L r.2) r.1
    if ContainsCachedArrayIndex L hash then
      some (hash |||
        ((L.kMaxCachedArrayIndexLength + 1) <<< L.ArrayIndexLengthBits.kShift) % 2 ^ 32)
    else some hash

/-- The `while (chars != end)` loop of the non-index hash, reading `chars[i]`; `none` is an
out-of-range read. -/
def hashLoopChecked (chars : List Nat) : Nat → Nat → Nat → Option Nat
  | 0, running_hash, _ => some running_hash
  | remaining + 1, running_hash, i =>
    match chars[i]? with
    | none => none
    | some c => hashLoopChecked chars remaining (AddCharacterCore running_hash c) (i + 1)

/-- The non-index hash, with checked reads. -/
def nonIndexHashChecked (L : Layout) (chars : List Nat) (length seed : Nat) : Option Nat :=
  match hashLoopChecked chars length (seed % 2 ^ 32) 0 with
  | none => none
  | some running_hash =>
    some (CreateHashFieldValue L (GetHashCore L running_hash) HashFieldType.kHash)

/-- The code after the index block, with checked reads. -/
def afterIndexBlockChecked (L : Layout) (chars : List Nat) (length seed : Nat) :
    Option Nat :=
  if length > L.kMaxHashCalcLength then some (GetTrivialHash L length)
  else nonIndexHashChecked L chars length seed

/-- The function `StringHasher::HashSequentialString` over a buffer `chars` and an explicit
`length`, with checked reads: `none` means that some `chars[i]` was read out of range. -/
def HashSequentialStringChecked (L : Layout) (chars : List Nat) (length seed : Nat) :
    Option Nat :=
  if length ≥ 1 then
    match chars[0]? with
    | none => none
    | some c0 =>
      if IsDecimalDigit c0 && (length == 1 || c0 != 48) then
        match (if length ≤ L.kMaxArrayIndexSize then
                 arrayIndexLoopChecked L chars length (length - 1) (c0 - 48) 1
               else some none) with
        | none => none
        | some (some field) => some field
        | some none =>
          if L.V8_HOST_ARCH_64_BIT && decide (length ≤ L.kMaxIntegerIndexSize) then
            integerIndexHashChecked L chars length seed
          else afterIndexBlockChecked L chars length seed
      else afterIndexBlockChecked L chars length seed
  else nonIndexHashChecked L chars length seed

/-! ## The template over the character type

`HashSequentialString` is a template over an integral character type `char_t` of at most
two bytes.  Here the buffer holds values of `char_t`, every element is read through the
pointer `reinterpret_cast<const uchar*>(chars_raw)`, and the conversions that the body
applies to a character are explicit. -/

/-- An integral character type `char_t`: its width in bits and its signedness. -/
structure CharType where
  /-- Width of the type in bits. -/
  bits : Nat
  /-- Whether the type is signed. -/
  isSigned : Bool
  deriving DecidableEq

/-- The type `char` where it is signed (and `signed char`, `int8_t`). -/
def signedChar8 : CharType := ⟨8, true⟩

/-- The type `uint8_t`. -/
def unsignedChar8 : CharType := ⟨8, false⟩

/-- The type `uint16_t`. -/
def unsignedChar16 : CharType := ⟨16, false⟩

/-- The value of type `char_t` that holds the code unit with the bits of `unit`: for a
signed type the two's-complement value. -/
def CharType.store (T : CharType) (unit : Nat) : Int :=
  if T.isSigned && decide (2 ^ (T.bits - 1) ≤ unit) then (unit : Int) - 2 ^ T.bits
  else (unit : Int)

/-- An element read through `reinterpret_cast<const uchar*>(chars_raw)`, where `uchar` is
`make_unsigned<char_t>`: the unsigned value of the same bits. -/
def CharType.asUchar (T : CharType) (raw : Int) : Nat := (raw % (2 : Int) ^ T.bits).toNat

/-- Conversion of a character to the parameter `uint16_t c` of `AddCharacterCore`. -/
def toUint16 (c : Nat) : Nat := c % 2 ^ 16

/-- The array-index `do ... while` loop of the template, over the elements from position
`i` on. -/
def arrayIndexLoopT (T : CharType) (L : Layout) (length : Nat) : Nat → List Int → Option Nat
  | index, [] => some (MakeArrayIndexHash L index length)
  | index, raw :: rest =>
    match TryAddArrayIndexChar index (T.asUchar raw) with
    | some index' => arrayIndexLoopT T L length index' rest
    | none => none

/-- The loop of the integer-index block of the template. -/
def integerIndexLoopT (T : CharType) (L : Layout) :
    HashFieldType → Nat → Nat → List Int → HashFieldType × Nat
  | type, running_hash, _, [] => (type, running_hash)
  | HashFieldType.kIntegerIndex, running_hash, index_big, raw :: rest =>
    match TryAddIntegerIndexChar L index_big (T.asUchar raw) with
    | some index_big' =>
      integerIndexLoopT T L HashFieldType.kIntegerIndex
        (AddCharacterCore running_hash (toUint16 (T.asUchar raw))) index_big' rest
    | none =>
      integerIndexLoopT T L HashFieldType.kHash
        (AddCharacterCore running_hash (toUint16 (T.asUchar raw))) index_big rest
  | HashFieldType.kHash, running_hash, index_big, raw :: rest =>
    integerIndexLoopT T L HashFieldType.kHash
      (AddCharacterCore running_hash (toUint16 (T.asUchar raw))) index_big rest

/-- The integer-index block of the template. -/
def integerIndexHashT (T : CharType) (L : Layout) (chars_raw : List Int) (seed : Nat) : Nat :=
  let r := integerIndexLoopT T L HashFieldType.kIntegerIndex (seed % 2 ^ 32) 0 chars_raw
  let hash := CreateHashFieldValue L (GetHashCore L r.2) r.1
  if ContainsCachedArrayIndex L hash then
    hash ||| ((L.kMaxCachedArrayIndexLength + 1) <<< L.ArrayIndexLengthBits.kShift) % 2 ^ 32
  else hash

/-- The loop of the non-index hash of the template. -/
def hashLoopT (T : CharType) : Nat → List Int → Nat
  | running_hash, [] => running_hash
  | running_hash, raw :: rest =>
    hashLoopT T (AddCharacterCore running_hash (toUint16 (T.asUchar raw))) rest

/-- The non-index hash of the template. -/
def nonIndexHashT (T : CharType) (L : Layout) (chars_raw : List Int) (seed : Nat) : Nat :=
  CreateHashFieldValue L (GetHashCore L (hashLoopT T (seed % 2 ^ 32) chars_raw))
    HashFieldType.kHash

/-- The code of the template after the index block, for `length >= 1`. -/
def afterIndexBlockT (T : CharType) (L : Layout) (chars_raw : List Int) (seed : Nat) : Nat :=
  if chars_raw.length > L.kMaxHashCalcLength then GetTrivialHash L chars_raw.length
  else nonIndexHashT T L chars_raw seed

/-- The template `StringHasher::HashSequentialString<char_t>` at the character type `T`;
`length` is the length of `chars_raw`.  The first index is `chars[0] - '0'` converted to
`uint32_t`. -/
def HashSequentialStringT (T : CharType) (L : Layout) (chars_raw : List Int) (seed : Nat) :
    Nat :=
  let length := chars_raw.length
  match chars_raw with
  | [] => nonIndexHashT T L chars_raw seed
  | raw0 :: rest =>
    if IsDecimalDigit (T.asUchar raw0) && (length == 1 || T.asUchar raw0 != 48) then
      match (if length ≤ L.kMaxArrayIndexSize then
               arrayIndexLoopT T L length ((T.asUchar raw0 - 48) % 2 ^ 32) rest
             else none) with
      | some field => field
      | none =>
        if L.V8_HOST_ARCH_64_BIT && decide (length ≤ L.kMaxIntegerIndexSize) then
          integerIndexHashT T L chars_raw seed
        else afterIndexBlockT T L chars_raw seed
    else afterIndexBlockT T L chars_raw seed

/-- Zero extension of an 8-bit code unit to 16 bits. -/
def zeroExtend (c : Fin (2 ^ 8)) : Fin (2 ^ 16) :=
  ⟨c.val, Nat.lt_trans c.isLt (by decide)⟩

/-! ## Bit ranges -/

theorem BitField.decode_eq (b : BitField) (hb : b.kShift + b.kSize ≤ 32) (value : Nat) :
    b.decode value = value / 2 ^ b.kShift % 2 ^ b.kSize := by
  apply Nat.eq_of_testBit_eq
  intro i
  rw [← Nat.shiftRight_eq_div_pow]
  simp only [BitField.decode, BitField.kMask, BitField.kMax, Nat.testBit_shiftRight,
    Nat.testBit_and, Nat.testBit_mod_two_pow, Nat.testBit_shiftLeft,
    Nat.testBit_two_pow_sub_one]
  by_cases h : i < b.kSize
  · have h1 : b.kShift + i < 32 := by omega
    have h2 : b.kShift + i - b.kShift < b.kSize := by omega
    simp [h, h1, h2]
  · have h2 : ¬ (b.kShift + i - b.kShift < b.kSize) := by omega
    simp [h, h2]

theorem shiftLeft_mod_two_pow (x s n : Nat) :
    (x <<< s) % 2 ^ (s + n) = 2 ^ s * (x % 2 ^ n) := by
  rw [Nat.shiftLeft_eq, Nat.pow_add, Nat.mul_comm x, Nat.mul_mod_mul_left]

theorem Layout.typeValue_lt {L : Layout} (hL : L.WellFormed) (t : HashFieldType) :
    L.typeValue t < 2 ^ L.HashBits.kShift := by
  obtain ⟨-, -, h3, -, -, -, -, -, -, -, h11, h12, -⟩ := hL
  rw [h3]
  cases t
  · exact h11
  · exact h12

theorem two_pow_kShift_le {L : Layout} (hL : L.WellFormed) :
    2 ^ L.HashBits.kShift ≤ 2 ^ 32 := by
  obtain ⟨-, -, -, -, h5, -⟩ := hL
  exact Nat.pow_le_pow_right (by decide) (by omega)

theorem CreateHashFieldValue_eq {L : Layout} (hL : L.WellFormed) (hash : Nat)
    (t : HashFieldType) :
    CreateHashFieldValue L hash t
      = 2 ^ L.HashBits.kShift * (hash % 2 ^ L.HashBits.kSize) + L.typeValue t := by
  have ht := Layout.typeValue_lt hL t
  have hle := two_pow_kShift_le hL
  obtain ⟨h1, -, -, -, h5, -⟩ := hL
  unfold CreateHashFieldValue
  rw [h1, Nat.shiftLeft_zero, Nat.mod_eq_of_lt (show L.typeValue t < 2 ^ 32 by omega),
    Nat.mul_add_lt_is_or ht,
    ← shiftLeft_mod_two_pow, h5]

theorem fieldType_CreateHashFieldValue {L : Layout} (hL : L.WellFormed) (hash : Nat)
    (t : HashFieldType) :
    fieldType L (CreateHashFieldValue L hash t) = L.typeValue t := by
  have ht := Layout.typeValue_lt hL t
  rw [CreateHashFieldValue_eq hL]
  obtain ⟨h1, h2, h3, h4, h5, -⟩ := hL
  unfold fieldType
  rw [BitField.decode_eq _ (by omega), h1, ← h3, Nat.pow_zero, Nat.div_one,
    Nat.mul_add_mod, Nat.mod_eq_of_lt ht]

theorem fieldHash_CreateHashFieldValue {L : Layout} (hL : L.WellFormed) (hash : Nat)
    (t : HashFieldType) :
    fieldHash L (CreateHashFieldValue L hash t) = hash % 2 ^ L.HashBits.kSize := by
  have ht := Layout.typeValue_lt hL t
  rw [CreateHashFieldValue_eq hL]
  obtain ⟨h1, h2, h3, h4, h5, -⟩ := hL
  unfold fieldHash
  rw [BitField.decode_eq _ (by omega), Nat.mul_add_div (Nat.two_pow_pos _),
    Nat.div_eq_of_lt ht, Nat.add_zero, Nat.mod_mod]

/-! ## The finalisation step -/

theorem toInt32_of_lt {x : Nat} (h : x < 2 ^ 31) : toInt32 x = (x : Int) := by
  unfold toInt32
  have : x % 2 ^ 32 = x := Nat.mod_eq_of_lt (by omega)
  rw [this, if_pos h]

theorem toUint32_mask_zero : toUint32 ((((0 : Nat) : Int) - 1) >>> (31 : Nat)) = 2 ^ 32 - 1 := by
  decide

theorem toUint32_mask_pos {m : Nat} (h0 : m ≠ 0) (h : m < 2 ^ 31) :
    toUint32 ((((m : Nat) : Int) - 1) >>> (31 : Nat)) = 0 := by
  have h1 : ((m : Nat) : Int) - 1 = ((m - 1 : Nat) : Int) := by omega
  have h2 : ((m - 1 : Nat) : Int) >>> (31 : Nat) = 0 := by
    rw [Int.shiftRight_eq_div_pow]
    norm_num
    omega
  rw [h1, h2]
  decide

theorem and_kMax_lt {L : Layout} (hL : L.WellFormed) (a : Nat) :
    a &&& L.HashBits.kMax < 2 ^ 31 := by
  obtain ⟨-, h2, h3, -, h5, -⟩ := hL
  unfold BitField.kMax
  rw [Nat.and_pow_two_sub_one_eq_mod]
  have h31 : 2 ^ L.HashBits.kSize ≤ 2 ^ 31 := Nat.pow_le_pow_right (by decide) (by omega)
  have := Nat.mod_lt a (Nat.two_pow_pos L.HashBits.kSize)
  omega

theorem GetHashCore_eq {L : Layout} (hL : L.WellFormed) (running_hash : Nat) :
    GetHashCore L running_hash =
      if finishingAvalanche running_hash &&& L.HashBits.kMax = 0 then
        finishingAvalanche running_hash ||| L.kZeroHash
      else finishingAvalanche running_hash := by
  have hlt := and_kMax_lt hL (finishingAvalanche running_hash)
  have hz : L.kZeroHash < 2 ^ 31 := hL.2.2.2.2.2.2.2.2.2.2.2.2.2.1
  unfold GetHashCore
  simp only []
  change finishingAvalanche running_hash |||
    (L.kZeroHash % 2 ^ 32 &&&
      toUint32 ((toInt32 (finishingAvalanche running_hash &&& L.HashBits.kMax) - 1) >>> (31 : Nat))) = _
  rw [toInt32_of_lt hlt]
  split
  · next h0 =>
    rw [h0, toUint32_mask_zero, Nat.and_pow_two_sub_one_eq_mod, Nat.mod_mod,
      Nat.mod_eq_of_lt (by omega)]
  · next h0 =>
    rw [toUint32_mask_pos h0 hlt, Nat.and_zero, Nat.or_zero]

theorem GetHashCore_mod_ne_zero {L : Layout} (hL : L.WellFormed) (running_hash : Nat) :
    GetHashCore L running_hash % 2 ^ L.HashBits.kSize ≠ 0 := by
  have hz : L.kZeroHash &&& L.HashBits.kMax ≠ 0 := hL.2.2.2.2.2.2.2.2.2.2.2.2.2.2.1
  rw [GetHashCore_eq hL]
  unfold BitField.kMax at *
  rw [Nat.and_pow_two_sub_one_eq_mod] at *
  split
  · next h0 =>
    intro h
    apply hz
    apply Nat.eq_of_testBit_eq
    intro i
    have := congrArg (fun x => x.testBit i) h
    simp only [Nat.testBit_mod_two_pow, Nat.testBit_or, Nat.zero_testBit] at this ⊢
    cases hi : decide (i < L.HashBits.kSize) <;> simp_all
  · next h0 => exact h0

/-! ## Decoding fields -/

theorem BitField.decode_or (b : BitField) (x y : Nat) :
    b.decode (x ||| y) = b.decode x ||| b.decode y := by
  apply Nat.eq_of_testBit_eq
  intro i
  simp only [BitField.decode, Nat.testBit_shiftRight, Nat.testBit_and, Nat.testBit_or]
  cases x.testBit (b.kShift + i) <;> simp

theorem fieldType_MakeArrayIndexHash {L : Layout} (hL : L.WellFormed) (value length : Nat) :
    fieldType L (MakeArrayIndexHash L value length) = 0 := by
  obtain ⟨h1, h2, h3, h4, h5, h6, h7, h8, h9, -⟩ := hL
  unfold fieldType
  rw [BitField.decode_eq _ (by omega), h1, Nat.pow_zero, Nat.div_one]
  apply Nat.eq_of_testBit_eq
  intro i
  simp only [MakeArrayIndexHash, Nat.testBit_mod_two_pow, Nat.testBit_or,
    Nat.testBit_shiftLeft, Nat.zero_testBit]
  by_cases hi : i < L.HashFieldTypeBits.kSize
  · have a1 : ¬ (i ≥ L.ArrayIndexValueBits.kShift) := by omega
    have a2 : ¬ (i ≥ L.ArrayIndexLengthBits.kShift) := by omega
    simp [a1, a2]
  · simp [hi]

/-! ## The loops -/

theorem hashLoop_eq_foldl (running_hash : Nat) (chars : List Nat) :
    hashLoop running_hash chars = chars.foldl AddCharacterCore running_hash := by
  induction chars generalizing running_hash with
  | nil => rfl
  | cons c rest ih => simp only [hashLoop, List.foldl_cons, ih]

theorem integerIndexLoop_snd (L : Layout) (type : HashFieldType)
    (running_hash index_big : Nat) (chars : List Nat) :
    (integerIndexLoop L type running_hash index_big chars).2 = hashLoop running_hash chars := by
  induction chars generalizing type running_hash index_big with
  | nil => cases type <;> rfl
  | cons c rest ih =>
    cases type
    · simp only [integerIndexLoop, hashLoop, ih]
    · simp only [integerIndexLoop, hashLoop]
      split <;> simp only [ih]

theorem integerIndexLoop_fst_kHash (L : Layout) (running_hash index_big : Nat)
    (chars : List Nat) :
    (integerIndexLoop L HashFieldType.kHash running_hash index_big chars).1
      = HashFieldType.kHash := by
  induction chars generalizing running_hash index_big with
  | nil => rfl
  | cons c rest ih => simp only [integerIndexLoop, ih]

theorem integerIndexLoop_fst (L : Layout) (running_hash index_big : Nat)
    (chars : List Nat) :
    (integerIndexLoop L HashFieldType.kIntegerIndex running_hash index_big chars).1
      = if integerIndexAccumulates L index_big chars then HashFieldType.kIntegerIndex
        else HashFieldType.kHash := by
  induction chars generalizing running_hash index_big with
  | nil => rfl
  | cons c rest ih =>
    cases h : TryAddIntegerIndexChar L index_big c with
    | none => simp [integerIndexLoop, integerIndexAccumulates, h, integerIndexLoop_fst_kHash]
    | some index_big' => simp only [integerIndexLoop, integerIndexAccumulates, h, ih]

/-- The fold that `arrayIndexLoop` computes on a digit string. -/
theorem arrayIndexLoop_some (L : Layout) (length index : Nat) (rest : List Nat)
    (hd : ∀ c ∈ rest, IsDecimalDigit c = true)
    (hv : rest.foldl (fun acc c => acc * 10 + (c - 48)) index ≤ kMaxArrayIndex) :
    arrayIndexLoop L length index rest
      = some (MakeArrayIndexHash L
          (rest.foldl (fun acc c => acc * 10 + (c - 48)) index) length) := by
  induction rest generalizing index with
  | nil => rfl
  | cons c rest ih =>
    have hmono : ∀ (l : List Nat) (a : Nat),
        a ≤ l.foldl (fun acc c => acc * 10 + (c - 48)) a := by
      intro l
      induction l with
      | nil => intro a; exact Nat.le_refl a
      | cons d l ihl =>
        intro a
        simp only [List.foldl_cons]
        exact Nat.le_trans (by omega) (ihl _)
    simp only [List.foldl_cons] at hv ⊢
    have hc : IsDecimalDigit c = true := hd c (List.mem_cons_self _ _)
    have hle : index * 10 + (c - 48) ≤ kMaxArrayIndex := Nat.le_trans (hmono rest _) hv
    simp only [arrayIndexLoop, TryAddArrayIndexChar, hc, if_true, hle]
    exact ih _ (fun d hdm => hd d (List.mem_cons_of_mem _ hdm)) hv

theorem arrayIndexLoop_le (L : Layout) (length index : Nat) (rest : List Nat) (field : Nat)
    (hi : index ≤ kMaxArrayIndex)
    (h : arrayIndexLoop L length index rest = some field) :
    rest.foldl (fun acc c => acc * 10 + (c - 48)) index ≤ kMaxArrayIndex := by
  induction rest generalizing index with
  | nil => exact hi
  | cons c rest ih =>
    simp only [arrayIndexLoop, TryAddArrayIndexChar] at h
    simp only [List.foldl_cons]
    split at h
    · next idx heq =>
      split at heq
      · split at heq
        · next hle =>
          cases heq
          exact ih _ hle h
        · cases heq
      · cases heq
    · cases h

theorem arrayIndexLoop_eq_make (L : Layout) (length index : Nat) (rest : List Nat)
    (field : Nat) (h : arrayIndexLoop L length index rest = some field) :
    ∃ value, field = MakeArrayIndexHash L value length := by
  induction rest generalizing index with
  | nil =>
    simp only [arrayIndexLoop, Option.some.injEq] at h
    exact ⟨index, h.symm⟩
  | cons c rest ih =>
    simp only [arrayIndexLoop] at h
    split at h
    · exact ih _ h
    · cases h

/-! ## Path selection of `HashSequentialString` -/

theorem HashSequentialString_nil (L : Layout) (seed : Nat) :
    HashSequentialString L [] seed = nonIndexHash L [] seed := rfl

theorem afterIndexBlock_nil (L : Layout) (seed : Nat) :
    afterIndexBlock L [] seed = nonIndexHash L [] seed := by
  simp [afterIndexBlock]

theorem HashSequentialString_not_index (L : Layout) (c0 : Nat) (rest : List Nat) (seed : Nat)
    (h : (IsDecimalDigit c0 && ((c0 :: rest).length == 1 || c0 != 48)) = false) :
    HashSequentialString L (c0 :: rest) seed = afterIndexBlock L (c0 :: rest) seed := by
  unfold HashSequentialString
  simp only [h, Bool.false_eq_true, if_false]

theorem HashSequentialString_long (L : Layout) (chars : List Nat) (seed : Nat)
    (h1 : L.kMaxArrayIndexSize < chars.length)
    (h2 : L.kMaxIntegerIndexSize < chars.length) :
    HashSequentialString L chars seed = afterIndexBlock L chars seed := by
  cases chars with
  | nil => exact (afterIndexBlock_nil L seed).symm
  | cons c0 rest =>
    unfold HashSequentialString
    have a1 : ¬ ((c0 :: rest).length ≤ L.kMaxArrayIndexSize) := by omega
    have a2 : ¬ ((c0 :: rest).length ≤ L.kMaxIntegerIndexSize) := by omega
    simp only [a1, a2, if_false, decide_False, Bool.and_false, Bool.false_eq_true, ite_self]

theorem HashSequentialString_trivial (L : Layout) (chars : List Nat) (seed : Nat)
    (h1 : L.kMaxArrayIndexSize ≤ L.kMaxHashCalcLength)
    (h2 : L.kMaxIntegerIndexSize ≤ L.kMaxHashCalcLength)
    (h : L.kMaxHashCalcLength < chars.length) :
    HashSequentialString L chars seed = GetTrivialHash L chars.length := by
  rw [HashSequentialString_long L chars seed (by omega) (by omega)]
  unfold afterIndexBlock
  rw [if_pos h]

theorem nonIndexHash_eq (L : Layout) (chars : List Nat) (seed : Nat) :
    nonIndexHash L chars seed
      = CreateHashFieldValue L
          (GetHashCore L (chars.foldl AddCharacterCore (seed % 2 ^ 32))) HashFieldType.kHash := by
  unfold nonIndexHash
  rw [hashLoop_eq_foldl]

theorem kMax_lt (L : Layout) : L.HashBits.kMax < 2 ^ L.HashBits.kSize := by
  unfold BitField.kMax
  have := Nat.two_pow_pos L.HashBits.kSize
  omega

theorem thresholds_le {L : Layout} (hL : L.WellFormed) :
    L.kMaxArrayIndexSize ≤ L.kMaxIntegerIndexSize ∧
      L.kMaxIntegerIndexSize < L.kMaxHashCalcLength := by
  obtain ⟨-, -, -, -, -, -, -, -, -, -, -, -, -, -, -, -, -, h1, h2⟩ := hL
  exact ⟨h1, h2⟩

theorem nonIndexHash_tagged {L : Layout} (hL : L.WellFormed) (chars : List Nat) (seed : Nat) :
    fieldType L (nonIndexHash L chars seed) = L.kHashValue ∧
      fieldHash L (nonIndexHash L chars seed) ≠ 0 := by
  unfold nonIndexHash
  rw [fieldType_CreateHashFieldValue hL, fieldHash_CreateHashFieldValue hL]
  exact ⟨rfl, GetHashCore_mod_ne_zero hL _⟩

/-! ## The claims -/

/-- C3 (as amended): for every character sequence whose length exceeds
`MaxHashCalcLength` and is at most `HashBits.kMax`, and every seed,
`HashSequentialString` returns `GetTrivialHash(length)`, a field tagged `Hash` whose
payload decoded from the `HashBits` range equals the length. -/
theorem trivial_length_path {L : Layout} (hL : L.WellFormed)
    (chars : List Nat) (seed : Nat)
    (hlong : L.kMaxHashCalcLength < chars.length)
    (hfit : chars.length ≤ L.HashBits.kMax) :
    HashSequentialString L chars seed = GetTrivialHash L chars.length ∧
      fieldType L (HashSequentialString L chars seed) = L.kHashValue ∧
      fieldHash L (HashSequentialString L chars seed) = chars.length := by
  obtain ⟨t1, t2⟩ := thresholds_le hL
  have hk := kMax_lt L
  rw [HashSequentialString_trivial L chars seed (by omega) (by omega) hlong]
  refine ⟨rfl, ?_, ?_⟩
  · exact fieldType_CreateHashFieldValue hL _ _
  · unfold GetTrivialHash
    rw [fieldHash_CreateHashFieldValue hL, Nat.mod_eq_of_lt (by omega)]

/-- C4: given `MaxArrayIndexSize < MaxIntegerIndexSize < MaxHashCalcLength`, any two
character sequences of the same length above `MaxHashCalcLength` hash to the same field,
for any two seeds, whatever their first characters are. -/
theorem oversized_hash_by_length (L : Layout)
    (h1 : L.kMaxArrayIndexSize < L.kMaxIntegerIndexSize)
    (h2 : L.kMaxIntegerIndexSize < L.kMaxHashCalcLength)
    (chars1 chars2 : List Nat) (seed1 seed2 : Nat)
    (hlen : chars1.length = chars2.length)
    (hlong : L.kMaxHashCalcLength < chars1.length) :
    HashSequentialString L chars1 seed1 = HashSequentialString L chars2 seed2 := by
  rw [HashSequentialString_trivial L chars1 seed1 (by omega) (by omega) hlong,
    HashSequentialString_trivial L chars2 seed2 (by omega) (by omega) (by omega), hlen]

/-- C6: a character sequence of length at least 2 and at most `MaxHashCalcLength` whose
first character is `'0'` takes neither index path: the result is the `Hash`-tagged
generic field over the fold of `AddCharacterCore` from the low 32 bits of the seed. -/
theorem leading_zero_generic {L : Layout} (hL : L.WellFormed)
    (chars : List Nat) (seed : Nat)
    (hzero : chars.head? = some 48)
    (hlen : 2 ≤ chars.length)
    (hcalc : chars.length ≤ L.kMaxHashCalcLength) :
    HashSequentialString L chars seed
        = CreateHashFieldValue L
            (GetHashCore L (chars.foldl AddCharacterCore (seed % 2 ^ 32)))
            HashFieldType.kHash ∧
      fieldType L (HashSequentialString L chars seed) = L.kHashValue := by
  cases chars with
  | nil => simp at hzero
  | cons c0 rest =>
    simp only [List.head?_cons, Option.some.injEq] at hzero
    subst hzero
    have hne : ((48 :: rest).length == 1) = false := by
      simp only [List.length_cons] at hlen ⊢
      simp only [beq_eq_false_iff_ne, ne_eq]
      omega
    have hsel : HashSequentialString L (48 :: rest) seed = nonIndexHash L (48 :: rest) seed := by
      rw [HashSequentialString_not_index L 48 rest seed (by rw [hne]; rfl)]
      unfold afterIndexBlock
      rw [if_neg (by omega)]
    rw [hsel]
    exact ⟨nonIndexHash_eq L _ seed, (nonIndexHash_tagged hL _ seed).1⟩

/-- C7: for a character sequence of length at most `MaxHashCalcLength` that is empty, or
does not start with a decimal digit, or is longer than `MaxIntegerIndexSize`, the result
is the generic field over the fold of `AddCharacterCore` from the low 32 bits of the
seed; it is tagged `Hash` and its payload is not zero. -/
theorem generic_path_fold {L : Layout} (hL : L.WellFormed)
    (chars : List Nat) (seed : Nat)
    (hcalc : chars.length ≤ L.kMaxHashCalcLength)
    (hcase : chars = [] ∨ (∃ c, chars.head? = some c ∧ IsDecimalDigit c = false) ∨
      L.kMaxIntegerIndexSize < chars.length) :
    HashSequentialString L chars seed
        = CreateHashFieldValue L
            (GetHashCore L (chars.foldl AddCharacterCore (seed % 2 ^ 32)))
            HashFieldType.kHash ∧
      fieldType L (HashSequentialString L chars seed) = L.kHashValue ∧
      fieldHash L (HashSequentialString L chars seed) ≠ 0 := by
  have hsel : HashSequentialString L chars seed = nonIndexHash L chars seed := by
    rcases hcase with h | ⟨c, hc, hd⟩ | h
    · subst h
      rfl
    · cases chars with
      | nil => simp at hc
      | cons c0 rest =>
        simp only [List.head?_cons, Option.some.injEq] at hc
        subst hc
        rw [HashSequentialString_not_index L c0 rest seed (by rw [hd]; rfl)]
        unfold afterIndexBlock
        rw [if_neg (by omega)]
    · obtain ⟨t1, t2⟩ := thresholds_le hL
      rw [HashSequentialString_long L chars seed (by omega) h]
      unfold afterIndexBlock
      rw [if_neg (by omega)]
  rw [hsel]
  exact ⟨nonIndexHash_eq L _ seed, nonIndexHash_tagged hL _ seed⟩

/-- C10: two seeds with the same low 32 bits give the same field for every character
sequence, on every path. -/
theorem seed_low_bits_only (L : Layout) (chars : List Nat)
    (seed1 seed2 : Nat) (h : seed1 % 2 ^ 32 = seed2 % 2 ^ 32) :
    HashSequentialString L chars seed1 = HashSequentialString L chars seed2 := by
  simp only [HashSequentialString, afterIndexBlock, nonIndexHash, integerIndexHash, h]

/-! ## The cached-array-index fix-up -/

theorem exists_bit_succ (K : Nat) : ∃ j, (K + 1).testBit j = true ∧ K.testBit j = false := by
  by_contra hcon
  push_neg at hcon
  have hle : K + 1 ≤ K := Nat.le_of_testBit (fun i hi => by simpa using hcon i hi)
  omega

theorem marker_not_cached {L : Layout} (hL : L.WellFormed) (h : Nat) :
    ContainsCachedArrayIndex L
      (h ||| ((L.kMaxCachedArrayIndexLength + 1) <<< L.ArrayIndexLengthBits.kShift) % 2 ^ 32)
      = false := by
  obtain ⟨-, -, -, -, -, -, -, h8, h9, -, -, -, -, -, -, h15, -⟩ := hL
  obtain ⟨j, hj1, hj2⟩ := exists_bit_succ L.kMaxCachedArrayIndexLength
  have hjlt : j < L.ArrayIndexLengthBits.kSize := by
    by_contra hge
    have hpow : 2 ^ L.ArrayIndexLengthBits.kSize ≤ 2 ^ j :=
      Nat.pow_le_pow_right (by decide) (by omega)
    have := Nat.testBit_lt_two_pow (Nat.lt_of_lt_of_le h15 hpow)
    rw [this] at hj1
    cases hj1
  have hK : L.kMaxCachedArrayIndexLength < 2 ^ 32 := by
    have hpow : 2 ^ L.ArrayIndexLengthBits.kSize ≤ 2 ^ 32 :=
      Nat.pow_le_pow_right (by decide) (by omega)
    omega
  have hsub : 2 ^ 32 - 1 - L.kMaxCachedArrayIndexLength % 2 ^ 32
      = 2 ^ 32 - (L.kMaxCachedArrayIndexLength + 1) := by
    rw [Nat.mod_eq_of_lt hK]
    omega
  have hbit : ((h ||| ((L.kMaxCachedArrayIndexLength + 1) <<< L.ArrayIndexLengthBits.kShift)
        % 2 ^ 32) &&& kDoesNotContainCachedArrayIndexMask L).testBit
        (L.ArrayIndexLengthBits.kShift + j) = true := by
    have a1 : L.ArrayIndexLengthBits.kShift + j < 32 := by omega
    have a2 : L.ArrayIndexLengthBits.kShift + j - L.ArrayIndexLengthBits.kShift = j := by omega
    have a3 : j < 32 := by omega
    simp only [kDoesNotContainCachedArrayIndexMask, hsub, Nat.testBit_and, Nat.testBit_or,
      Nat.testBit_mod_two_pow, Nat.testBit_shiftLeft, Nat.testBit_two_pow_sub_succ hK, a1, a2,
      a3, hj1, hj2]
    simp
  unfold ContainsCachedArrayIndex
  rw [beq_eq_false_iff_ne]
  intro hzero
  rw [hzero, Nat.zero_testBit] at hbit
  cases hbit

theorem integerIndexHash_not_cached {L : Layout} (hL : L.WellFormed) (chars : List Nat)
    (seed : Nat) : ContainsCachedArrayIndex L (integerIndexHash L chars seed) = false := by
  unfold integerIndexHash
  simp only []
  split
  · exact marker_not_cached hL _
  · next hn => simpa using hn

theorem fieldType_marker {L : Layout} (hL : L.WellFormed) :
    fieldType L (((L.kMaxCachedArrayIndexLength + 1) <<< L.ArrayIndexLengthBits.kShift)
      % 2 ^ 32) = 0 := by
  have := fieldType_MakeArrayIndexHash hL 0 (L.kMaxCachedArrayIndexLength + 1)
  simpa [MakeArrayIndexHash] using this

theorem integerIndexHash_fieldType {L : Layout} (hL : L.WellFormed) (chars : List Nat)
    (seed : Nat) :
    fieldType L (integerIndexHash L chars seed)
      = L.typeValue (integerIndexLoop L HashFieldType.kIntegerIndex (seed % 2 ^ 32) 0 chars).1 := by
  unfold integerIndexHash
  simp only []
  split
  · unfold fieldType
    rw [BitField.decode_or]
    change fieldType L _ ||| fieldType L _ = _
    rw [fieldType_marker hL, Nat.or_zero, fieldType_CreateHashFieldValue hL]
  · exact fieldType_CreateHashFieldValue hL _ _

theorem or_eq_zero_left {a b : Nat} (h : a ||| b = 0) : a = 0 := by
  have hle : a ≤ a ||| b := Nat.le_of_testBit (fun i hi => by simp [hi])
  omega

theorem integerIndexHash_fieldHash_ne_zero {L : Layout} (hL : L.WellFormed) (chars : List Nat)
    (seed : Nat) : fieldHash L (integerIndexHash L chars seed) ≠ 0 := by
  have hcore : ∀ t r, fieldHash L (CreateHashFieldValue L (GetHashCore L r) t) ≠ 0 := by
    intro t r
    rw [fieldHash_CreateHashFieldValue hL]
    exact GetHashCore_mod_ne_zero hL r
  unfold integerIndexHash
  simp only []
  split
  · unfold fieldHash
    rw [BitField.decode_or]
    intro h0
    exact hcore _ _ (or_eq_zero_left h0)
  · exact hcore _ _

theorem HashSequentialString_cases (L : Layout) (chars : List Nat) (seed : Nat) :
    HashSequentialString L chars seed = nonIndexHash L chars seed ∨
      (∃ value, HashSequentialString L chars seed = MakeArrayIndexHash L value chars.length) ∨
      HashSequentialString L chars seed = integerIndexHash L chars seed ∨
      (L.kMaxHashCalcLength < chars.length ∧
        HashSequentialString L chars seed = GetTrivialHash L chars.length) := by
  have hafter : afterIndexBlock L chars seed = nonIndexHash L chars seed ∨
      (L.kMaxHashCalcLength < chars.length ∧
        afterIndexBlock L chars seed = GetTrivialHash L chars.length) := by
    unfold afterIndexBlock
    split
    · next h => exact Or.inr ⟨h, rfl⟩
    · exact Or.inl rfl
  cases chars with
  | nil => exact Or.inl rfl
  | cons c0 rest =>
    unfold HashSequentialString
    simp only []
    split
    · split
      · next field hfield =>
        split at hfield
        · exact Or.inr (Or.inl (arrayIndexLoop_eq_make L _ _ _ _ hfield))
        · cases hfield
      · split
        · exact Or.inr (Or.inr (Or.inl rfl))
        · rcases hafter with h | h
          · exact Or.inl h
          · exact Or.inr (Or.inr (Or.inr h))
    · rcases hafter with h | h
      · exact Or.inl h
      · exact Or.inr (Or.inr (Or.inr h))

/-- C2 (as amended): for every character sequence whose length is at most
`HashBits.kMax` and every seed, if the field returned by `HashSequentialString` is tagged
`Hash` then its payload, the `HashBits` range of the field, is not zero. -/
theorem hash_payload_never_zero {L : Layout} (hL : L.WellFormed)
    (chars : List Nat) (seed : Nat)
    (hfit : chars.length ≤ L.HashBits.kMax)
    (htag : fieldType L (HashSequentialString L chars seed) = L.kHashValue) :
    fieldHash L (HashSequentialString L chars seed) ≠ 0 := by
  rcases HashSequentialString_cases L chars seed with h | ⟨value, h⟩ | h | ⟨hlong, h⟩
  · rw [h]
    exact (nonIndexHash_tagged hL chars seed).2
  · rw [h, fieldType_MakeArrayIndexHash hL] at htag
    have hpos : 0 < L.kHashValue := hL.2.2.2.2.2.2.2.2.2.1
    omega
  · rw [h]
    exact integerIndexHash_fieldHash_ne_zero hL chars seed
  · rw [h]
    unfold GetTrivialHash
    have hk := kMax_lt L
    rw [fieldHash_CreateHashFieldValue hL, Nat.mod_eq_of_lt (by omega)]
    omega

/-- C5: every field returned from the integer-index pass of `HashSequentialString` fails
`ContainsCachedArrayIndex`, because OR-ing
`(MaxCachedArrayIndexLength + 1) << ArrayIndexLengthBits.shift` into any field makes the
predicate false. -/
theorem integer_index_pass_not_cached {L : Layout} (hL : L.WellFormed) :
    (∀ hash : Nat, ContainsCachedArrayIndex L
        (hash ||| ((L.kMaxCachedArrayIndexLength + 1) <<< L.ArrayIndexLengthBits.kShift)
          % 2 ^ 32) = false) ∧
      ∀ (chars : List Nat) (seed : Nat),
        ContainsCachedArrayIndex L (integerIndexHash L chars seed) = false :=
  ⟨marker_not_cached hL, integerIndexHash_not_cached hL⟩

/-! ## Digit strings -/

theorem decimalValue_cons (c0 : Nat) (rest : List Nat) :
    decimalValue (c0 :: rest) = rest.foldl (fun acc c => acc * 10 + (c - 48)) (c0 - 48) := by
  simp [decimalValue]

theorem IsDecimalDigit_iff (c : Nat) : IsDecimalDigit c = true ↔ 48 ≤ c ∧ c ≤ 57 := by
  simp [IsDecimalDigit]

theorem HashSequentialString_digits (L : Layout) (chars : List Nat) (seed : Nat)
    (hlen1 : 1 ≤ chars.length)
    (hlen : chars.length ≤ L.kMaxArrayIndexSize)
    (hdigits : ∀ c ∈ chars, IsDecimalDigit c = true)
    (hlead : chars.length = 1 ∨ chars.head? ≠ some 48)
    (hval : decimalValue chars ≤ kMaxArrayIndex) :
    HashSequentialString L chars seed
      = MakeArrayIndexHash L (decimalValue chars) chars.length := by
  cases chars with
  | nil => simp at hlen1
  | cons c0 rest =>
    have hc0 : IsDecimalDigit c0 = true := hdigits c0 (List.mem_cons_self _ _)
    have hcond : (IsDecimalDigit c0 && ((c0 :: rest).length == 1 || c0 != 48)) = true := by
      rw [hc0, Bool.true_and, Bool.or_eq_true]
      rcases hlead with h | h
      · exact Or.inl (by simp [h])
      · refine Or.inr ?_
        simp only [List.head?_cons, ne_eq, Option.some.injEq] at h
        simpa using h
    rw [decimalValue_cons] at hval ⊢
    unfold HashSequentialString
    simp only [hcond, if_true, if_pos hlen]
    rw [arrayIndexLoop_some L _ _ rest
      (fun c hc => hdigits c (List.mem_cons_of_mem _ hc)) hval]

theorem integerIndexHash_eq (L : Layout) (chars : List Nat) (seed : Nat) :
    integerIndexHash L chars seed =
      if ContainsCachedArrayIndex L
          (CreateHashFieldValue L (GetHashCore L (chars.foldl AddCharacterCore (seed % 2 ^ 32)))
            (if integerIndexAccumulates L 0 chars then HashFieldType.kIntegerIndex
              else HashFieldType.kHash)) then
        CreateHashFieldValue L (GetHashCore L (chars.foldl AddCharacterCore (seed % 2 ^ 32)))
            (if integerIndexAccumulates L 0 chars then HashFieldType.kIntegerIndex
              else HashFieldType.kHash) |||
          ((L.kMaxCachedArrayIndexLength + 1) <<< L.ArrayIndexLengthBits.kShift) % 2 ^ 32
      else
        CreateHashFieldValue L (GetHashCore L (chars.foldl AddCharacterCore (seed % 2 ^ 32)))
            (if integerIndexAccumulates L 0 chars then HashFieldType.kIntegerIndex
              else HashFieldType.kHash) := by
  unfold integerIndexHash
  simp only [integerIndexLoop_snd, integerIndexLoop_fst, hashLoop_eq_foldl]

theorem HashSequentialString_integer_pass (L : Layout) (chars : List Nat) (seed : Nat)
    (h64 : L.V8_HOST_ARCH_64_BIT = true)
    (hdigits : ∀ c ∈ chars, IsDecimalDigit c = true)
    (hlead : chars.length = 1 ∨ chars.head? ≠ some 48)
    (hne : chars ≠ [])
    (hlen : chars.length ≤ L.kMaxIntegerIndexSize)
    (hnot : L.kMaxArrayIndexSize < chars.length ∨ kMaxArrayIndex < decimalValue chars) :
    HashSequentialString L chars seed = integerIndexHash L chars seed := by
  cases chars with
  | nil => exact absurd rfl hne
  | cons c0 rest =>
    have hc0 : IsDecimalDigit c0 = true := hdigits c0 (List.mem_cons_self _ _)
    have hcond : (IsDecimalDigit c0 && ((c0 :: rest).length == 1 || c0 != 48)) = true := by
      rw [hc0, Bool.true_and, Bool.or_eq_true]
      rcases hlead with h | h
      · exact Or.inl (by simp [h])
      · refine Or.inr ?_
        simp only [List.head?_cons, ne_eq, Option.some.injEq] at h
        simpa using h
    have hnone : (if (c0 :: rest).length ≤ L.kMaxArrayIndexSize then
        arrayIndexLoop L (c0 :: rest).length (c0 - 48) rest else none) = none := by
      split
      · next hle =>
        rcases hnot with h | h
        · omega
        · cases hloop : arrayIndexLoop L (c0 :: rest).length (c0 - 48) rest with
          | none => rfl
          | some field =>
            have h9 : c0 - 48 ≤ kMaxArrayIndex := by
              have := (IsDecimalDigit_iff c0).mp hc0
              unfold kMaxArrayIndex
              omega
            have := arrayIndexLoop_le L _ _ rest field h9 hloop
            rw [decimalValue_cons] at h
            omega
      · rfl
    unfold HashSequentialString
    simp only [hcond, if_true, hnone, h64, Bool.true_and, decide_eq_true_eq, if_pos hlen]

theorem foldl_digits (l : List Nat) (hl : ∀ d ∈ l, d < 10) :
    (l.reverse.map (fun d => d + 48)).foldl (fun acc c => acc * 10 + (c - 48)) 0
      = Nat.ofDigits 10 l := by
  induction l with
  | nil => rfl
  | cons d l ih =>
    rw [List.reverse_cons, List.map_append, List.foldl_append,
      ih (fun e he => hl e (List.mem_cons_of_mem _ he)), Nat.ofDigits_cons]
    simp only [List.map_cons, List.map_nil, List.foldl_cons, List.foldl_nil,
      Nat.add_sub_cancel]
    omega

theorem decimalValue_decimalString (n : Nat) : decimalValue (decimalString n) = n := by
  unfold decimalString decimalValue
  split
  · next h => simp [h]
  · rw [foldl_digits _ (fun d hd => Nat.digits_lt_base (by decide) hd), Nat.ofDigits_digits]

theorem decimalString_digits (n : Nat) : ∀ c ∈ decimalString n, IsDecimalDigit c = true := by
  intro c hc
  unfold decimalString at hc
  rw [IsDecimalDigit_iff]
  split at hc
  · simp only [List.mem_singleton] at hc
    omega
  · simp only [List.mem_map, List.mem_reverse] at hc
    obtain ⟨d, hd, rfl⟩ := hc
    have := @Nat.digits_lt_base 10 n d (by decide) hd
    omega

theorem decimalString_length_pos (n : Nat) : 1 ≤ (decimalString n).length := by
  unfold decimalString
  split
  · simp
  · next h =>
    have hne : Nat.digits 10 n ≠ [] := by
      rwa [ne_eq, Nat.digits_eq_nil_iff_eq_zero]
    have := List.length_pos.mpr hne
    simpa using this

theorem decimalString_lead (n : Nat) :
    (decimalString n).length = 1 ∨ (decimalString n).head? ≠ some 48 := by
  unfold decimalString
  split
  · exact Or.inl rfl
  · next h =>
    refine Or.inr ?_
    have hne : Nat.digits 10 n ≠ [] := by
      rwa [ne_eq, Nat.digits_eq_nil_iff_eq_zero]
    have hlast := Nat.getLast_digit_ne_zero 10 h
    rw [List.head?_map, List.head?_reverse, List.getLast?_eq_getLast _ hne]
    simp only [Option.map_some', ne_eq, Option.some.injEq]
    omega

theorem MakeArrayIndexHash_decode {L : Layout} (hL : L.WellFormed) (value length : Nat)
    (hv : value < 2 ^ L.ArrayIndexValueBits.kSize)
    (hl : length < 2 ^ L.ArrayIndexLengthBits.kSize) :
    L.ArrayIndexValueBits.decode (MakeArrayIndexHash L value length) = value ∧
      L.ArrayIndexLengthBits.decode (MakeArrayIndexHash L value length) = length := by
  obtain ⟨h1, h2, h3, h4, h5, h6, h7, h8, h9, -⟩ := hL
  have e1 : (value <<< L.ArrayIndexValueBits.kShift) % 2 ^ 32
      = 2 ^ L.ArrayIndexValueBits.kShift * value := by
    have : 32 = L.ArrayIndexValueBits.kShift +
        (L.ArrayIndexValueBits.kSize + L.ArrayIndexLengthBits.kSize) := by omega
    rw [this, shiftLeft_mod_two_pow, Nat.mod_eq_of_lt]
    calc value < 2 ^ L.ArrayIndexValueBits.kSize := hv
      _ ≤ 2 ^ (L.ArrayIndexValueBits.kSize + L.ArrayIndexLengthBits.kSize) :=
        Nat.pow_le_pow_right (by decide) (by omega)
  have e2 : (length <<< L.ArrayIndexLengthBits.kShift) % 2 ^ 32
      = 2 ^ L.ArrayIndexLengthBits.kShift * length := by
    rw [← h9, shiftLeft_mod_two_pow, Nat.mod_eq_of_lt hl]
  have hlt : 2 ^ L.ArrayIndexValueBits.kShift * value < 2 ^ L.ArrayIndexLengthBits.kShift := by
    rw [h7, Nat.pow_add]
    exact Nat.mul_lt_mul_of_pos_left hv (Nat.two_pow_pos _)
  have e3 : MakeArrayIndexHash L value length
      = 2 ^ L.ArrayIndexLengthBits.kShift * length
        + 2 ^ L.ArrayIndexValueBits.kShift * value := by
    unfold MakeArrayIndexHash
    rw [e1, e2, Nat.lor_comm, ← Nat.mul_add_lt_is_or hlt]
  have e4 : MakeArrayIndexHash L value length
      = 2 ^ L.ArrayIndexValueBits.kShift *
          (2 ^ L.ArrayIndexValueBits.kSize * length + value) := by
    rw [e3, h7, Nat.pow_add, Nat.mul_add, Nat.mul_assoc]
  constructor
  · rw [BitField.decode_eq _ (by omega), e4, Nat.mul_div_cancel_left _ (Nat.two_pow_pos _),
      Nat.mul_add_mod, Nat.mod_eq_of_lt hv]
  · rw [BitField.decode_eq _ (by omega), e3, Nat.mul_add_div (Nat.two_pow_pos _),
      Nat.div_eq_of_lt hlt, Nat.add_zero, Nat.mod_eq_of_lt hl]

theorem valueBits_le {L : Layout} (hL : L.WellFormed) :
    2 ^ L.ArrayIndexValueBits.kSize ≤ kMaxArrayIndex := by
  obtain ⟨h1, h2, h3, h4, h5, h6, h7, h8, h9, -⟩ := hL
  have : 2 ^ L.ArrayIndexValueBits.kSize ≤ 2 ^ 30 :=
    Nat.pow_le_pow_right (by decide) (by omega)
  unfold kMaxArrayIndex
  omega

/-- C1 (as amended): for every `N` below `2 ^ ArrayIndexValueBits.size` whose canonical
decimal string has length at most `MaxArrayIndexSize`, and every seed,
`HashSequentialString` of that string is `MakeArrayIndexHash(N, length)`, and decoding
the array-index value bits and length bits of it gives back `N` and the length. -/
theorem decimal_string_round_trip {L : Layout} (hL : L.WellFormed)
    (N seed : Nat)
    (hN : N < 2 ^ L.ArrayIndexValueBits.kSize)
    (hlen : (decimalString N).length ≤ L.kMaxArrayIndexSize) :
    HashSequentialString L (decimalString N) seed
        = MakeArrayIndexHash L N (decimalString N).length ∧
      L.ArrayIndexValueBits.decode (HashSequentialString L (decimalString N) seed) = N ∧
      L.ArrayIndexLengthBits.decode (HashSequentialString L (decimalString N) seed)
        = (decimalString N).length := by
  have hbound := valueBits_le hL
  have hsize : L.kMaxArrayIndexSize < 2 ^ L.ArrayIndexLengthBits.kSize :=
    hL.2.2.2.2.2.2.2.2.2.2.2.2.2.2.2.2.1
  have hsel := HashSequentialString_digits L (decimalString N) seed
    (decimalString_length_pos N) hlen (decimalString_digits N) (decimalString_lead N)
    (by rw [decimalValue_decimalString]; omega)
  rw [decimalValue_decimalString] at hsel
  rw [hsel]
  exact ⟨rfl, MakeArrayIndexHash_decode hL N _ hN (by omega)⟩

/-- C8: a string of 1 to `MaxArrayIndexSize` decimal digits with no leading zero (unless
it is a single digit) whose value `N` is at most 4294967294 hashes to
`MakeArrayIndexHash(N, length)`, whatever the seed. -/
theorem array_index_path_result (L : Layout) (chars : List Nat) (seed : Nat)
    (hlen1 : 1 ≤ chars.length)
    (hlen : chars.length ≤ L.kMaxArrayIndexSize)
    (hdigits : ∀ c ∈ chars, IsDecimalDigit c = true)
    (hlead : chars.length = 1 ∨ chars.head? ≠ some 48)
    (hval : decimalValue chars ≤ 4294967294) :
    HashSequentialString L chars seed
      = MakeArrayIndexHash L (decimalValue chars) chars.length :=
  HashSequentialString_digits L chars seed hlen1 hlen hdigits hlead hval

/-- C9: on a 64-bit host, a canonical decimal digit string of length at most
`MaxIntegerIndexSize` that is not an array index (it is longer than `MaxArrayIndexSize`
or its value exceeds 4294967294) and whose 64-bit index accumulation never fails hashes
to the `IntegerIndex`-tagged field over the fold of `AddCharacterCore`, with the marker
`(MaxCachedArrayIndexLength + 1) << ArrayIndexLengthBits.shift` OR-ed in exactly when
that field satisfies `ContainsCachedArrayIndex`. -/
theorem integer_index_classification {L : Layout} (hL : L.WellFormed)
    (chars : List Nat) (seed : Nat)
    (h64 : L.V8_HOST_ARCH_64_BIT = true)
    (hdigits : ∀ c ∈ chars, IsDecimalDigit c = true)
    (hne : chars ≠ [])
    (hlead : chars.length = 1 ∨ chars.head? ≠ some 48)
    (hlen : chars.length ≤ L.kMaxIntegerIndexSize)
    (hnot : L.kMaxArrayIndexSize < chars.length ∨ 4294967294 < decimalValue chars)
    (hacc : integerIndexAccumulates L 0 chars = true) :
    HashSequentialString L chars seed
        = (if ContainsCachedArrayIndex L
              (CreateHashFieldValue L
                (GetHashCore L (chars.foldl AddCharacterCore (seed % 2 ^ 32)))
                HashFieldType.kIntegerIndex) then
            CreateHashFieldValue L
                (GetHashCore L (chars.foldl AddCharacterCore (seed % 2 ^ 32)))
                HashFieldType.kIntegerIndex |||
              ((L.kMaxCachedArrayIndexLength + 1) <<< L.ArrayIndexLengthBits.kShift) % 2 ^ 32
          else
            CreateHashFieldValue L
              (GetHashCore L (chars.foldl AddCharacterCore (seed % 2 ^ 32)))
              HashFieldType.kIntegerIndex) ∧
      fieldType L (HashSequentialString L chars seed) = L.kIntegerIndexValue := by
  have hsel := HashSequentialString_integer_pass L chars seed h64 hdigits hlead hne hlen hnot
  rw [hsel]
  constructor
  · rw [integerIndexHash_eq, hacc]
    rfl
  · rw [integerIndexHash_fieldType hL, integerIndexLoop_fst, hacc]
    rfl

/-! ## Concrete inputs -/

theorem decimalString_16777216 :
    decimalString 16777216 = [49, 54, 55, 55, 55, 50, 49, 54] := by
  simp [decimalString]

theorem decimalString_9999999999 :
    decimalString 9999999999 = [57, 57, 57, 57, 57, 57, 57, 57, 57, 57] := by
  simp [decimalString]

theorem decimalString_1234567 :
    decimalString 1234567 = [49, 50, 51, 52, 53, 54, 55] := by
  simp [decimalString]

/-- C1, counterexample: on the 64-bit layout, `16777216` has an 8-character decimal
string, within `MaxArrayIndexSize`, but the array-index value bits of its hash field
decode to 0 and the length bits to 9; and `9999999999` has a 10-character decimal
string whose hash field is not `MakeArrayIndexHash(9999999999, 10)` at all. -/
theorem round_trip_fails_beyond_value_bits :
    (decimalString 16777216).length ≤ x64Layout.kMaxArrayIndexSize ∧
      x64Layout.ArrayIndexValueBits.decode
        (HashSequentialString x64Layout (decimalString 16777216) 0) ≠ 16777216 ∧
      x64Layout.ArrayIndexLengthBits.decode
        (HashSequentialString x64Layout (decimalString 16777216) 0)
          ≠ (decimalString 16777216).length ∧
      (decimalString 9999999999).length ≤ x64Layout.kMaxArrayIndexSize ∧
      HashSequentialString x64Layout (decimalString 9999999999) 0
        ≠ MakeArrayIndexHash x64Layout 9999999999 (decimalString 9999999999).length := by
  rw [decimalString_16777216, decimalString_9999999999]
  decide

/-- C1 (as amended), witness: `1234567` on the 64-bit layout. -/
theorem decimal_string_round_trip_witness :
    x64Layout.WellFormed ∧ 1234567 < 2 ^ x64Layout.ArrayIndexValueBits.kSize ∧
      (decimalString 1234567).length ≤ x64Layout.kMaxArrayIndexSize ∧
      HashSequentialString x64Layout (decimalString 1234567) 7
        = MakeArrayIndexHash x64Layout 1234567 (decimalString 1234567).length ∧
      x64Layout.ArrayIndexValueBits.decode
        (HashSequentialString x64Layout (decimalString 1234567) 7) = 1234567 ∧
      x64Layout.ArrayIndexLengthBits.decode
        (HashSequentialString x64Layout (decimalString 1234567) 7)
          = (decimalString 1234567).length :=
  ⟨by decide, by decide, by rw [decimalString_1234567]; decide,
    decimal_string_round_trip (by decide) 1234567 7 (by decide)
      (by rw [decimalString_1234567]; decide)⟩

/-- C2, counterexample: on the 64-bit layout, a sequence of `2 ^ 30` characters hashes
to a field tagged `Hash` whose payload is zero. -/
theorem zero_payload_at_two_pow_30 :
    fieldType x64Layout (HashSequentialString x64Layout (List.replicate 1073741824 97) 0)
        = x64Layout.kHashValue ∧
      fieldHash x64Layout (HashSequentialString x64Layout (List.replicate 1073741824 97) 0)
        = 0 := by
  rw [HashSequentialString_trivial x64Layout _ 0 (by decide) (by decide)
    (by rw [List.length_replicate]; decide), List.length_replicate]
  decide

/-- C2 (as amended), witness: the string `"abc"` with seed 7 on the 64-bit layout. -/
theorem hash_payload_never_zero_witness :
    x64Layout.WellFormed ∧ [97, 98, 99].length ≤ x64Layout.HashBits.kMax ∧
      fieldType x64Layout (HashSequentialString x64Layout [97, 98, 99] 7)
        = x64Layout.kHashValue ∧
      fieldHash x64Layout (HashSequentialString x64Layout [97, 98, 99] 7) ≠ 0 :=
  ⟨by decide, by decide, by decide,
    hash_payload_never_zero (by decide) [97, 98, 99] 7 (by decide)
      (by decide)⟩

/-- C3, counterexample: on the 64-bit layout, a sequence of `2 ^ 30 + 1` characters is
longer than `MaxHashCalcLength`, and the payload of its hash field is 1, not the
length. -/
theorem payload_differs_beyond_kMax :
    x64Layout.kMaxHashCalcLength < (List.replicate 1073741825 97).length ∧
      fieldHash x64Layout (HashSequentialString x64Layout (List.replicate 1073741825 97) 0)
        = 1 ∧
      fieldHash x64Layout (HashSequentialString x64Layout (List.replicate 1073741825 97) 0)
        ≠ (List.replicate 1073741825 97).length := by
  rw [HashSequentialString_trivial x64Layout _ 0 (by decide) (by decide)
    (by rw [List.length_replicate]; decide), List.length_replicate]
  decide

/-- C3 (as amended), witness: a sequence of 16384 characters on the 64-bit layout. -/
theorem trivial_length_path_witness :
    x64Layout.WellFormed ∧
      x64Layout.kMaxHashCalcLength < (List.replicate 16384 97).length ∧
      (List.replicate 16384 97).length ≤ x64Layout.HashBits.kMax ∧
      HashSequentialString x64Layout (List.replicate 16384 97) 7
        = GetTrivialHash x64Layout (List.replicate 16384 97).length ∧
      fieldType x64Layout (HashSequentialString x64Layout (List.replicate 16384 97) 7)
        = x64Layout.kHashValue ∧
      fieldHash x64Layout (HashSequentialString x64Layout (List.replicate 16384 97) 7)
        = (List.replicate 16384 97).length :=
  ⟨by decide, by rw [List.length_replicate]; decide, by rw [List.length_replicate]; decide,
    trivial_length_path (by decide) (List.replicate 16384 97) 7
      (by rw [List.length_replicate]; decide) (by rw [List.length_replicate]; decide)⟩

/-- C4, witness: 16384 digits `'1'` with seed 1 and 16384 letters `'a'` with seed 2 hash
to the same field on the 64-bit layout. -/
theorem oversized_hash_by_length_witness :
    x64Layout.kMaxArrayIndexSize < x64Layout.kMaxIntegerIndexSize ∧
      x64Layout.kMaxIntegerIndexSize < x64Layout.kMaxHashCalcLength ∧
      (List.replicate 16384 49).length = (List.replicate 16384 97).length ∧
      x64Layout.kMaxHashCalcLength < (List.replicate 16384 49).length ∧
      HashSequentialString x64Layout (List.replicate 16384 49) 1
        = HashSequentialString x64Layout (List.replicate 16384 97) 2 :=
  ⟨by decide, by decide, by rw [List.length_replicate, List.length_replicate],
    by rw [List.length_replicate]; decide,
    oversized_hash_by_length x64Layout (by decide) (by decide)
      (List.replicate 16384 49) (List.replicate 16384 97) 1 2
      (by rw [List.length_replicate, List.length_replicate])
      (by rw [List.length_replicate]; decide)⟩

/-- C5, witness: the eleven-digit string `"99999999999"` with seed 4 on the 64-bit
layout, where the fix-up is applied. -/
theorem integer_index_pass_not_cached_witness :
    x64Layout.WellFormed ∧
      ContainsCachedArrayIndex x64Layout
        (CreateHashFieldValue x64Layout
          (GetHashCore x64Layout
            (hashLoop 4 [57, 57, 57, 57, 57, 57, 57, 57, 57, 57, 57]))
          HashFieldType.kIntegerIndex) = true ∧
      ContainsCachedArrayIndex x64Layout
        (integerIndexHash x64Layout [57, 57, 57, 57, 57, 57, 57, 57, 57, 57, 57] 4) = false :=
  ⟨by decide, by decide,
    (@integer_index_pass_not_cached x64Layout (by decide)).2
      [57, 57, 57, 57, 57, 57, 57, 57, 57, 57, 57] 4⟩

/-- C6, witness: the string `"01"` with seed 0 on the 64-bit layout. -/
theorem leading_zero_generic_witness :
    x64Layout.WellFormed ∧ [48, 49].head? = some 48 ∧ 2 ≤ [48, 49].length ∧
      [48, 49].length ≤ x64Layout.kMaxHashCalcLength ∧
      HashSequentialString x64Layout [48, 49] 0
        = CreateHashFieldValue x64Layout
            (GetHashCore x64Layout ([48, 49].foldl AddCharacterCore (0 % 2 ^ 32)))
            HashFieldType.kHash ∧
      fieldType x64Layout (HashSequentialString x64Layout [48, 49] 0)
        = x64Layout.kHashValue :=
  ⟨by decide, by decide, by decide, by decide,
    leading_zero_generic (by decide) [48, 49] 0 (by decide) (by decide)
      (by decide)⟩

/-- C7, witness: the empty string with seed 7 on the 64-bit layout. -/
theorem generic_path_fold_witness :
    x64Layout.WellFormed ∧ ([] : List Nat).length ≤ x64Layout.kMaxHashCalcLength ∧
      HashSequentialString x64Layout [] 7
        = CreateHashFieldValue x64Layout
            (GetHashCore x64Layout (([] : List Nat).foldl AddCharacterCore (7 % 2 ^ 32)))
            HashFieldType.kHash ∧
      fieldType x64Layout (HashSequentialString x64Layout [] 7) = x64Layout.kHashValue ∧
      fieldHash x64Layout (HashSequentialString x64Layout [] 7) ≠ 0 :=
  ⟨by decide, by decide,
    generic_path_fold (by decide) [] 7 (by decide) (Or.inl rfl)⟩

/-- C8, witness: the string `"0"` hashes to `MakeArrayIndexHash(0, 1)` on the 64-bit
layout. -/
theorem array_index_path_result_witness :
    decimalValue [48] = 0 ∧ [48].length = 1 ∧
      HashSequentialString x64Layout [48] 7
        = MakeArrayIndexHash x64Layout (decimalValue [48]) [48].length :=
  ⟨by decide, by decide,
    array_index_path_result x64Layout [48] 7 (by decide) (by decide) (by decide)
      (by decide) (by decide)⟩

/-- C9, witness: the string `"4294967295"` with seed 4 on the 64-bit layout, where the
marker is set. -/
theorem integer_index_classification_witness :
    x64Layout.WellFormed ∧
      4294967294 < decimalValue [52, 50, 57, 52, 57, 54, 55, 50, 57, 53] ∧
      integerIndexAccumulates x64Layout 0 [52, 50, 57, 52, 57, 54, 55, 50, 57, 53] = true ∧
      (HashSequentialString x64Layout [52, 50, 57, 52, 57, 54, 55, 50, 57, 53] 4
          = (if ContainsCachedArrayIndex x64Layout
                (CreateHashFieldValue x64Layout
                  (GetHashCore x64Layout
                    ([52, 50, 57, 52, 57, 54, 55, 50, 57, 53].foldl AddCharacterCore
                      (4 % 2 ^ 32)))
                  HashFieldType.kIntegerIndex) then
              CreateHashFieldValue x64Layout
                  (GetHashCore x64Layout
                    ([52, 50, 57, 52, 57, 54, 55, 50, 57, 53].foldl AddCharacterCore
                      (4 % 2 ^ 32)))
                  HashFieldType.kIntegerIndex |||
                ((x64Layout.kMaxCachedArrayIndexLength + 1) <<<
                  x64Layout.ArrayIndexLengthBits.kShift) % 2 ^ 32
            else
              CreateHashFieldValue x64Layout
                (GetHashCore x64Layout
                  ([52, 50, 57, 52, 57, 54, 55, 50, 57, 53].foldl AddCharacterCore
                    (4 % 2 ^ 32)))
                HashFieldType.kIntegerIndex) ∧
        fieldType x64Layout
          (HashSequentialString x64Layout [52, 50, 57, 52, 57, 54, 55, 50, 57, 53] 4)
            = x64Layout.kIntegerIndexValue) :=
  ⟨by decide, by decide, by decide,
    integer_index_classification (by decide) [52, 50, 57, 52, 57, 54, 55, 50, 57, 53] 4
      (by decide) (by decide) (by decide) (by decide) (by decide) (by decide) (by decide)⟩

/-- C10, witness: the seeds `5` and `5 + 2 ^ 32` on the string `"12345678901"`. -/
theorem seed_low_bits_only_witness :
    5 % 2 ^ 32 = 4294967301 % 2 ^ 32 ∧
      HashSequentialString x64Layout [49, 50, 51, 52, 53, 54, 55, 56, 57, 48, 49] 5
        = HashSequentialString x64Layout [49, 50, 51, 52, 53, 54, 55, 56, 57, 48, 49]
            4294967301 :=
  ⟨by decide,
    seed_low_bits_only x64Layout [49, 50, 51, 52, 53, 54, 55, 56, 57, 48, 49]
      5 4294967301 (by decide)⟩


/-! ## The result of `GetHashCore` -/

theorem mask_of_pos {m : Nat} (h0 : m ≠ 0) : (((m : Nat) : Int) - 1) >>> (31 : Nat) = 0
    ∨ 2 ^ 31 ≤ m := by
  by_cases h : m < 2 ^ 31
  · left
    have h1 : ((m : Nat) : Int) - 1 = ((m - 1 : Nat) : Int) := by omega
    rw [h1, Int.shiftRight_eq_div_pow]
    norm_num
    omega
  · right
    omega

theorem finishingAvalanche_lt (running_hash : Nat) : finishingAvalanche running_hash < 2 ^ 32 := by
  unfold finishingAvalanche
  exact Nat.mod_lt _ (by decide)

theorem GetHashCore_lt {L : Layout} (hL : L.WellFormed) (running_hash : Nat) :
    GetHashCore L running_hash < 2 ^ 32 := by
  have hz : L.kZeroHash < 2 ^ 31 := hL.2.2.2.2.2.2.2.2.2.2.2.2.2.1
  have ha := finishingAvalanche_lt running_hash
  rw [GetHashCore_eq hL]
  split
  · exact Nat.or_lt_two_pow ha (by omega)
  · exact ha

/-- C11 (as amended): for every running value `r` with finishing avalanche `a`,
`GetHashCore(r)` is `a | kZeroHash` when the payload bits `a & HashBits.kMax` are zero
and `a` itself otherwise; it is a 32-bit value that is not masked to the payload width,
and `CreateHashFieldValue` keeps of it the payload `GetHashCore(r) & HashBits.kMax`,
which is at most `HashBits.kMax`. -/
theorem hash_core_payload_bound {L : Layout} (hL : L.WellFormed) (r : Nat)
    (t : HashFieldType) :
    GetHashCore L r
        = (if finishingAvalanche r &&& L.HashBits.kMax = 0 then
            finishingAvalanche r ||| L.kZeroHash
          else finishingAvalanche r) ∧
      GetHashCore L r < 2 ^ 32 ∧
      fieldHash L (CreateHashFieldValue L (GetHashCore L r) t)
        = GetHashCore L r &&& L.HashBits.kMax ∧
      GetHashCore L r &&& L.HashBits.kMax ≤ L.HashBits.kMax := by
  refine ⟨GetHashCore_eq hL r, GetHashCore_lt hL r, ?_, Nat.and_le_right⟩
  rw [fieldHash_CreateHashFieldValue hL]
  unfold BitField.kMax
  rw [Nat.and_pow_two_sub_one_eq_mod]

/-- C11, counterexample: on the 64-bit layout `GetHashCore(0xFFFFFFFF)` is 4293132296,
above `HashBits.kMax = 2 ^ 30 - 1`; so is the value computed for the string `"abc"`
with seed 7. -/
theorem hash_core_exceeds_kMax :
    GetHashCore x64Layout 4294967295 = 4293132296 ∧
      x64Layout.HashBits.kMax = 1073741823 ∧
      ¬ (GetHashCore x64Layout 4294967295 ≤ x64Layout.HashBits.kMax) ∧
      ¬ (GetHashCore x64Layout (hashLoop 7 [97, 98, 99]) ≤ x64Layout.HashBits.kMax) := by
  decide

/-- C11 (as amended), witness: the running value `0xFFFFFFFF` on the 64-bit layout, whose
avalanche has non-zero payload bits and is returned unmasked; and the running value 0,
whose avalanche is 0, where `kZeroHash` is OR-ed in. -/
theorem hash_core_payload_bound_witness :
    x64Layout.WellFormed ∧
      finishingAvalanche 4294967295 &&& x64Layout.HashBits.kMax ≠ 0 ∧
      GetHashCore x64Layout 4294967295 = finishingAvalanche 4294967295 ∧
      finishingAvalanche 0 &&& x64Layout.HashBits.kMax = 0 ∧
      GetHashCore x64Layout 0 = finishingAvalanche 0 ||| x64Layout.kZeroHash ∧
      (GetHashCore x64Layout 4294967295
          = (if finishingAvalanche 4294967295 &&& x64Layout.HashBits.kMax = 0 then
              finishingAvalanche 4294967295 ||| x64Layout.kZeroHash
            else finishingAvalanche 4294967295) ∧
        GetHashCore x64Layout 4294967295 < 2 ^ 32 ∧
        fieldHash x64Layout
            (CreateHashFieldValue x64Layout (GetHashCore x64Layout 4294967295)
              HashFieldType.kHash)
          = GetHashCore x64Layout 4294967295 &&& x64Layout.HashBits.kMax ∧
        GetHashCore x64Layout 4294967295 &&& x64Layout.HashBits.kMax
          ≤ x64Layout.HashBits.kMax) :=
  ⟨by decide, by decide, by decide, by decide, by decide,
    hash_core_payload_bound (by decide) 4294967295 HashFieldType.kHash⟩

/-- C13: for every running value `r` with finishing avalanche `a`, the signed `mask` of
`GetHashCore` is all ones (-1) when `a & HashBits.kMax` is zero and zero otherwise, so
`GetHashCore(r)` is `a | kZeroHash` in the zero case and `a` otherwise, and the payload
bits of the result are never all zero. -/
theorem hash_core_branch_free {L : Layout} (hL : L.WellFormed) (r : Nat) :
    GetHashCore L r
        = finishingAvalanche r ||| (L.kZeroHash % 2 ^ 32 &&& toUint32 (GetHashCoreMask L r)) ∧
      GetHashCoreMask L r
        = (if finishingAvalanche r &&& L.HashBits.kMax = 0 then -1 else 0) ∧
      GetHashCore L r
        = (if finishingAvalanche r &&& L.HashBits.kMax = 0 then
            finishingAvalanche r ||| L.kZeroHash
          else finishingAvalanche r) ∧
      GetHashCore L r &&& L.HashBits.kMax ≠ 0 := by
  have hlt := and_kMax_lt hL (finishingAvalanche r)
  refine ⟨rfl, ?_, GetHashCore_eq hL r, ?_⟩
  · unfold GetHashCoreMask
    rw [toInt32_of_lt hlt]
    split
    · next h0 =>
      rw [h0]
      decide
    · next h0 =>
      rcases mask_of_pos h0 with h | h
      · exact h
      · omega
  · have := GetHashCore_mod_ne_zero hL r
    unfold BitField.kMax
    rwa [Nat.and_pow_two_sub_one_eq_mod]

/-- C13, witness: the running value 0 on the 64-bit layout, whose avalanche is 0, so
that the result is `kZeroHash`. -/
theorem hash_core_branch_free_witness :
    x64Layout.WellFormed ∧ finishingAvalanche 0 &&& x64Layout.HashBits.kMax = 0 ∧
      GetHashCore x64Layout 0 = 27 ∧
      (GetHashCore x64Layout 0
          = finishingAvalanche 0 |||
              (x64Layout.kZeroHash % 2 ^ 32 &&& toUint32 (GetHashCoreMask x64Layout 0)) ∧
        GetHashCoreMask x64Layout 0
          = (if finishingAvalanche 0 &&& x64Layout.HashBits.kMax = 0 then -1 else 0) ∧
        GetHashCore x64Layout 0
          = (if finishingAvalanche 0 &&& x64Layout.HashBits.kMax = 0 then
              finishingAvalanche 0 ||| x64Layout.kZeroHash
            else finishingAvalanche 0) ∧
        GetHashCore x64Layout 0 &&& x64Layout.HashBits.kMax ≠ 0) :=
  ⟨by decide, by decide, by decide, hash_core_branch_free (by decide) 0⟩


/-! ## The fallback of the integer-index pass -/

theorem fieldType_of_cached {L : Layout} (hL : L.WellFormed) (field : Nat)
    (h : ContainsCachedArrayIndex L field = true) : fieldType L field = 0 := by
  obtain ⟨h1, h2, h3, h4, h5, -⟩ := hL
  unfold ContainsCachedArrayIndex at h
  rw [beq_iff_eq] at h
  unfold fieldType BitField.decode
  apply Nat.eq_of_testBit_eq
  intro i
  have hbit := congrArg (fun x => x.testBit i) h
  simp only [kDoesNotContainCachedArrayIndexMask, Nat.testBit_and, Nat.testBit_or,
    Nat.zero_testBit] at hbit
  rw [h1, Nat.shiftRight_zero, Nat.zero_testBit, Nat.testBit_and]
  cases hm : (L.HashFieldTypeBits.kMask).testBit i
  · simp
  · simp only [hm, Bool.or_true, Bool.and_true] at hbit
    simp [hbit]

theorem not_cached_of_kHash {L : Layout} (hL : L.WellFormed) (field : Nat)
    (h : fieldType L field = L.kHashValue) : ContainsCachedArrayIndex L field = false := by
  have hpos : 0 < L.kHashValue := hL.2.2.2.2.2.2.2.2.2.1
  cases hc : ContainsCachedArrayIndex L field
  · rfl
  · have := fieldType_of_cached hL field hc
    omega

theorem arrayIndexLoop_digits (L : Layout) (length index : Nat) (rest : List Nat)
    (field : Nat) (h : arrayIndexLoop L length index rest = some field) :
    ∀ c ∈ rest, IsDecimalDigit c = true := by
  induction rest generalizing index with
  | nil => simp
  | cons c rest ih =>
    simp only [arrayIndexLoop, TryAddArrayIndexChar] at h
    intro d hd
    cases hc : IsDecimalDigit c
    · simp [hc] at h
    · rw [hc] at h
      simp only [if_true] at h
      split at h
      · next idx heq =>
        rcases List.mem_cons.mp hd with rfl | hmem
        · exact hc
        · exact ih _ h d hmem
      · cases h

/-- C12: a character sequence of length at most `MaxIntegerIndexSize` that starts with a
decimal digit satisfying the no-leading-zero rule, is not an array index (it contains a
non-digit, is longer than `MaxArrayIndexSize` or its value exceeds 4294967294) and on
which the 64-bit index accumulation fails hashes to the same field as the generic path,
the `Hash`-tagged field over the fold of `AddCharacterCore`; and the cached-array-index
fix-up never applies to a `Hash`-tagged field. -/
theorem integer_index_fallback_is_generic {L : Layout} (hL : L.WellFormed)
    (chars : List Nat) (seed : Nat)
    (hlen : chars.length ≤ L.kMaxIntegerIndexSize)
    (hfirst : ∃ c, chars.head? = some c ∧ IsDecimalDigit c = true ∧
      (chars.length = 1 ∨ c ≠ 48))
    (hnotarray : (∃ c ∈ chars, IsDecimalDigit c = false) ∨
      L.kMaxArrayIndexSize < chars.length ∨ 4294967294 < decimalValue chars)
    (hfail : integerIndexAccumulates L 0 chars = false) :
    HashSequentialString L chars seed
        = CreateHashFieldValue L
            (GetHashCore L (chars.foldl AddCharacterCore (seed % 2 ^ 32)))
            HashFieldType.kHash ∧
      HashSequentialString L chars seed = nonIndexHash L chars seed ∧
      ∀ field : Nat, fieldType L field = L.kHashValue →
        ContainsCachedArrayIndex L field = false := by
  have hgen : HashSequentialString L chars seed = nonIndexHash L chars seed := by
    obtain ⟨c0, hhead, hc0, hlead⟩ := hfirst
    cases chars with
    | nil => simp at hhead
    | cons c rest =>
      simp only [List.head?_cons, Option.some.injEq] at hhead
      subst hhead
      have hcond : (IsDecimalDigit c && ((c :: rest).length == 1 || c != 48)) = true := by
        rw [hc0, Bool.true_and, Bool.or_eq_true]
        rcases hlead with h | h
        · exact Or.inl (by simp [h])
        · exact Or.inr (by simpa using h)
      have hnone : (if (c :: rest).length ≤ L.kMaxArrayIndexSize then
          arrayIndexLoop L (c :: rest).length (c - 48) rest else none) = none := by
        split
        · next hle =>
          cases hloop : arrayIndexLoop L (c :: rest).length (c - 48) rest with
          | none => rfl
          | some field =>
            exfalso
            rcases hnotarray with ⟨d, hd, hdig⟩ | h | h
            · rcases List.mem_cons.mp hd with rfl | hmem
              · rw [hc0] at hdig
                cases hdig
              · rw [arrayIndexLoop_digits L _ _ rest field hloop d hmem] at hdig
                cases hdig
            · omega
            · have h9 : c - 48 ≤ kMaxArrayIndex := by
                have := (IsDecimalDigit_iff c).mp hc0
                unfold kMaxArrayIndex
                omega
              have := arrayIndexLoop_le L _ _ rest field h9 hloop
              rw [decimalValue_cons] at h
              unfold kMaxArrayIndex at this
              omega
        · rfl
      obtain ⟨t1, t2⟩ := thresholds_le hL
      unfold HashSequentialString
      simp only [hcond, if_true, hnone]
      cases h64 : L.V8_HOST_ARCH_64_BIT
      · simp only [Bool.false_and, Bool.false_eq_true, if_false]
        unfold afterIndexBlock
        rw [if_neg (by omega)]
      · simp only [Bool.true_and, decide_eq_true_eq, if_pos hlen]
        rw [integerIndexHash_eq, hfail]
        simp only [Bool.false_eq_true, if_false]
        rw [not_cached_of_kHash hL _ (fieldType_CreateHashFieldValue hL _ HashFieldType.kHash)]
        simp only [Bool.false_eq_true, if_false]
        exact (nonIndexHash_eq L _ seed).symm
  exact ⟨hgen.trans (nonIndexHash_eq L chars seed), hgen, not_cached_of_kHash hL⟩

/-- C12, witness: the string `"1abc"` with seed 7 on the 64-bit layout. -/
theorem integer_index_fallback_is_generic_witness :
    x64Layout.WellFormed ∧ [49, 97, 98, 99].length ≤ x64Layout.kMaxIntegerIndexSize ∧
      IsDecimalDigit 49 = true ∧ IsDecimalDigit 97 = false ∧
      integerIndexAccumulates x64Layout 0 [49, 97, 98, 99] = false ∧
      (HashSequentialString x64Layout [49, 97, 98, 99] 7
          = CreateHashFieldValue x64Layout
              (GetHashCore x64Layout ([49, 97, 98, 99].foldl AddCharacterCore (7 % 2 ^ 32)))
              HashFieldType.kHash ∧
        HashSequentialString x64Layout [49, 97, 98, 99] 7
          = nonIndexHash x64Layout [49, 97, 98, 99] 7 ∧
        ∀ field : Nat, fieldType x64Layout field = x64Layout.kHashValue →
          ContainsCachedArrayIndex x64Layout field = false) :=
  ⟨by decide, by decide, by decide, by decide, by decide,
    integer_index_fallback_is_generic (by decide) [49, 97, 98, 99] 7 (by decide)
      ⟨49, by decide, by decide, by decide⟩ (Or.inl ⟨97, by decide, by decide⟩)
      (by decide)⟩


/-! ## The frame of the fix-up -/

theorem testBit_marker (L : Layout) (i : Nat) :
    (((L.kMaxCachedArrayIndexLength + 1) <<< L.ArrayIndexLengthBits.kShift) % 2 ^ 32).testBit i
      = (decide (i < 32) && (decide (i ≥ L.ArrayIndexLengthBits.kShift) &&
          (L.kMaxCachedArrayIndexLength + 1).testBit (i - L.ArrayIndexLengthBits.kShift))) := by
  simp only [Nat.testBit_mod_two_pow, Nat.testBit_shiftLeft]

/-- C17: OR-ing the marker `(MaxCachedArrayIndexLength + 1) << ArrayIndexLengthBits.shift`
into any field leaves the type-tag bits as they are and changes only bits of the marker,
which lie in the `ArrayIndexLengthBits` range; when `MaxCachedArrayIndexLength + 1` is
the power of two `2 ^ j` the only bit that can change is the bit `shift + j`.  Hence a
field tagged `IntegerIndex` before the fix-up is still tagged `IntegerIndex` after it,
and so is the field the integer-index pass returns for an integer index. -/
theorem fixup_changes_only_length_bits {L : Layout} (hL : L.WellFormed) (field : Nat) :
    fieldType L (field |||
        ((L.kMaxCachedArrayIndexLength + 1) <<< L.ArrayIndexLengthBits.kShift) % 2 ^ 32)
        = fieldType L field ∧
      (∀ i : Nat,
        (field ||| ((L.kMaxCachedArrayIndexLength + 1) <<< L.ArrayIndexLengthBits.kShift)
            % 2 ^ 32).testBit i ≠ field.testBit i →
          L.ArrayIndexLengthBits.kShift ≤ i ∧
            i < L.ArrayIndexLengthBits.kShift + L.ArrayIndexLengthBits.kSize) ∧
      (∀ j : Nat, L.kMaxCachedArrayIndexLength + 1 = 2 ^ j →
        ∀ i : Nat, i ≠ L.ArrayIndexLengthBits.kShift + j →
          (field ||| ((L.kMaxCachedArrayIndexLength + 1) <<< L.ArrayIndexLengthBits.kShift)
              % 2 ^ 32).testBit i = field.testBit i) ∧
      (fieldType L field = L.kIntegerIndexValue →
        fieldType L (field |||
          ((L.kMaxCachedArrayIndexLength + 1) <<< L.ArrayIndexLengthBits.kShift) % 2 ^ 32)
          = L.kIntegerIndexValue) ∧
      (∀ (chars : List Nat) (seed : Nat), integerIndexAccumulates L 0 chars = true →
        fieldType L (integerIndexHash L chars seed) = L.kIntegerIndexValue) := by
  have htype : fieldType L (field |||
      ((L.kMaxCachedArrayIndexLength + 1) <<< L.ArrayIndexLengthBits.kShift) % 2 ^ 32)
      = fieldType L field := by
    unfold fieldType
    rw [BitField.decode_or]
    change fieldType L _ ||| fieldType L _ = fieldType L _
    rw [fieldType_marker hL, Nat.or_zero]
  have h9 : L.ArrayIndexLengthBits.kShift + L.ArrayIndexLengthBits.kSize = 32 :=
    hL.2.2.2.2.2.2.2.2.1
  refine ⟨htype, ?_, ?_, ?_, ?_⟩
  · intro i hi
    rw [Nat.testBit_or, testBit_marker] at hi
    by_cases h32 : i < 32
    · by_cases hge : i ≥ L.ArrayIndexLengthBits.kShift
      · exact ⟨hge, by omega⟩
      · simp [hge] at hi
    · simp [h32] at hi
  · intro j hj i hi
    rw [Nat.testBit_or, testBit_marker, hj, Nat.testBit_two_pow]
    have : ¬ (j = i - L.ArrayIndexLengthBits.kShift ∧ i ≥ L.ArrayIndexLengthBits.kShift) := by
      omega
    by_cases hge : i ≥ L.ArrayIndexLengthBits.kShift
    · have hne : ¬ (j = i - L.ArrayIndexLengthBits.kShift) := fun h => this ⟨h, hge⟩
      simp [hne]
    · simp [hge]
  · intro h
    rw [htype, h]
  · intro chars seed hacc
    rw [integerIndexHash_fieldType hL, integerIndexLoop_fst, hacc]
    rfl

/-- C17, witness: the 64-bit layout, where the marker is the single bit 29, and the
field 0. -/
theorem fixup_changes_only_length_bits_witness :
    x64Layout.WellFormed ∧
      ((x64Layout.kMaxCachedArrayIndexLength + 1) <<< x64Layout.ArrayIndexLengthBits.kShift)
          % 2 ^ 32 = 2 ^ 29 ∧
      fieldType x64Layout (0 |||
          ((x64Layout.kMaxCachedArrayIndexLength + 1) <<<
            x64Layout.ArrayIndexLengthBits.kShift) % 2 ^ 32) = fieldType x64Layout 0 :=
  ⟨by decide, by decide, (fixup_changes_only_length_bits (by decide) 0).1⟩


/-! ## Injectivity of the mixer -/

theorem xorShift6_injective {x y : Nat} (hx : x < 2 ^ 32) (hy : y < 2 ^ 32)
    (h : x ^^^ (x >>> 6) = y ^^^ (y >>> 6)) : x = y := by
  have key : ∀ n i : Nat, 32 ≤ i + 6 * n → x.testBit i = y.testBit i := by
    intro n
    induction n with
    | zero =>
      intro i hi
      have hpow : 2 ^ 32 ≤ 2 ^ i := Nat.pow_le_pow_right (by decide) (by omega)
      rw [Nat.testBit_lt_two_pow (Nat.lt_of_lt_of_le hx hpow),
        Nat.testBit_lt_two_pow (Nat.lt_of_lt_of_le hy hpow)]
    | succ n ih =>
      intro i hi
      have hnext := ih (6 + i) (by omega)
      have hbit := congrArg (fun z => z.testBit i) h
      simp only [Nat.testBit_xor, Nat.testBit_shiftRight] at hbit
      rw [hnext] at hbit
      cases hxi : x.testBit i <;> cases hyi : y.testBit i <;>
        cases hyn : y.testBit (6 + i) <;> simp_all
  exact Nat.eq_of_testBit_eq (fun i => key 6 i (by omega))

theorem mul1025_injective {x y : Nat} (hx : x < 2 ^ 32) (hy : y < 2 ^ 32)
    (h : (x + (x <<< 10) % 2 ^ 32) % 2 ^ 32 = (y + (y <<< 10) % 2 ^ 32) % 2 ^ 32) : x = y := by
  have hmod : 1025 * x ≡ 1025 * y [MOD 2 ^ 32] := by
    show 1025 * x % 2 ^ 32 = 1025 * y % 2 ^ 32
    rw [Nat.shiftLeft_eq, Nat.shiftLeft_eq, Nat.add_mod_mod, Nat.add_mod_mod] at h
    have ex : 1025 * x = x + x * 2 ^ 10 := by omega
    have ey : 1025 * y = y + y * 2 ^ 10 := by omega
    rw [ex, ey]
    exact h
  have hcop : Nat.gcd (2 ^ 32) 1025 = 1 := by norm_num
  have hxy : x ≡ y [MOD 2 ^ 32] := Nat.ModEq.cancel_left_of_coprime hcop hmod
  have hxy' : x % 2 ^ 32 = y % 2 ^ 32 := hxy
  rwa [Nat.mod_eq_of_lt hx, Nat.mod_eq_of_lt hy] at hxy'

theorem AddCharacterCore_lt (running_hash c : Nat) : AddCharacterCore running_hash c < 2 ^ 32 := by
  unfold AddCharacterCore
  have h2 : ((running_hash + c) % 2 ^ 32 + ((running_hash + c) % 2 ^ 32) <<< 10 % 2 ^ 32)
      % 2 ^ 32 < 2 ^ 32 := Nat.mod_lt _ (by decide)
  refine Nat.xor_lt_two_pow h2 ?_
  rw [Nat.shiftRight_eq_div_pow]
  exact Nat.lt_of_le_of_lt (Nat.div_le_self _ _) h2

theorem AddCharacterCore_injective_left {c r1 r2 : Nat} (h1 : r1 < 2 ^ 32) (h2 : r2 < 2 ^ 32)
    (h : AddCharacterCore r1 c = AddCharacterCore r2 c) : r1 = r2 := by
  unfold AddCharacterCore at h
  simp only [] at h
  have hm := mul1025_injective (Nat.mod_lt _ (by decide)) (Nat.mod_lt _ (by decide))
    (xorShift6_injective (Nat.mod_lt _ (by decide)) (Nat.mod_lt _ (by decide)) h)
  omega

theorem AddCharacterCore_injective_right {r c1 c2 : Nat} (h1 : c1 < 2 ^ 16) (h2 : c2 < 2 ^ 16)
    (h : AddCharacterCore r c1 = AddCharacterCore r c2) : c1 = c2 := by
  unfold AddCharacterCore at h
  simp only [] at h
  have hm := mul1025_injective (Nat.mod_lt _ (by decide)) (Nat.mod_lt _ (by decide))
    (xorShift6_injective (Nat.mod_lt _ (by decide)) (Nat.mod_lt _ (by decide)) h)
  omega

theorem foldl_AddCharacterCore_ne (post : List Nat) {r1 r2 : Nat} (h1 : r1 < 2 ^ 32)
    (h2 : r2 < 2 ^ 32) (hne : r1 ≠ r2) :
    post.foldl AddCharacterCore r1 ≠ post.foldl AddCharacterCore r2 := by
  induction post generalizing r1 r2 with
  | nil => exact hne
  | cons c post ih =>
    simp only [List.foldl_cons]
    exact ih (AddCharacterCore_lt r1 c) (AddCharacterCore_lt r2 c)
      (fun h => hne (AddCharacterCore_injective_left h1 h2 h))

theorem foldl_AddCharacterCore_lt (chars : List Nat) {r : Nat} (h : r < 2 ^ 32) :
    chars.foldl AddCharacterCore r < 2 ^ 32 := by
  induction chars generalizing r with
  | nil => exact h
  | cons c chars ih =>
    simp only [List.foldl_cons]
    exact ih (AddCharacterCore_lt r c)

theorem split_at_position (chars : List Nat) (i : Nat) (hi : i < chars.length) :
    chars = chars.take i ++ chars[i] :: chars.drop (i + 1) := by
  rw [← List.drop_eq_getElem_cons hi, List.take_append_drop]

/-- C15: for every character `c` the map `r ↦ AddCharacterCore(r, c)` is injective on
32-bit values, for every `r` the map `c ↦ AddCharacterCore(r, c)` is injective on 16-bit
characters, and so two sequences of 16-bit characters of the same length that differ in
exactly one position have different running hashes after folding `AddCharacterCore`
over them from the low 32 bits of any seed. -/
theorem mixer_injective :
    (∀ c r1 r2 : Nat, r1 < 2 ^ 32 → r2 < 2 ^ 32 →
        AddCharacterCore r1 c = AddCharacterCore r2 c → r1 = r2) ∧
      (∀ r c1 c2 : Nat, c1 < 2 ^ 16 → c2 < 2 ^ 16 →
        AddCharacterCore r c1 = AddCharacterCore r c2 → c1 = c2) ∧
      (∀ (seed : Nat) (chars1 chars2 : List Nat) (i : Nat),
        chars1.length = chars2.length → i < chars1.length →
        (∀ c ∈ chars1, c < 2 ^ 16) → (∀ c ∈ chars2, c < 2 ^ 16) →
        chars1[i]? ≠ chars2[i]? → (∀ j : Nat, j ≠ i → chars1[j]? = chars2[j]?) →
        chars1.foldl AddCharacterCore (seed % 2 ^ 32)
          ≠ chars2.foldl AddCharacterCore (seed % 2 ^ 32)) := by
  refine ⟨fun c r1 r2 h1 h2 h => AddCharacterCore_injective_left h1 h2 h,
    fun r c1 c2 h1 h2 h => AddCharacterCore_injective_right h1 h2 h, ?_⟩
  intro seed chars1 chars2 i hlen hi h16a h16b hdiff hsame
  have hi2 : i < chars2.length := by omega
  have htake : chars1.take i = chars2.take i := by
    apply List.ext_getElem?
    intro j
    rw [List.getElem?_take, List.getElem?_take]
    split
    · next hj => exact hsame j (by omega)
    · rfl
  have hdrop : chars1.drop (i + 1) = chars2.drop (i + 1) := by
    apply List.ext_getElem?
    intro j
    rw [List.getElem?_drop, List.getElem?_drop]
    exact hsame _ (by omega)
  have hne : chars1[i] ≠ chars2[i] := by
    intro h
    apply hdiff
    rw [List.getElem?_eq_getElem hi, List.getElem?_eq_getElem hi2, h]
  have hpre := foldl_AddCharacterCore_lt (chars2.take i)
    (Nat.mod_lt seed (show 0 < 2 ^ 32 by decide))
  rw [split_at_position chars1 i hi, split_at_position chars2 i hi2, htake, hdrop,
    List.foldl_append, List.foldl_append, List.foldl_cons, List.foldl_cons]
  exact foldl_AddCharacterCore_ne _ (AddCharacterCore_lt _ _) (AddCharacterCore_lt _ _)
    (fun h => hne (AddCharacterCore_injective_right
      (h16a _ (List.getElem_mem _)) (h16b _ (List.getElem_mem _)) h))

/-- C15, witness: the strings `"abc"` and `"axc"` with seed 7 have different running
hashes. -/
theorem mixer_injective_witness :
    [97, 98, 99].foldl AddCharacterCore (7 % 2 ^ 32)
      ≠ [97, 120, 99].foldl AddCharacterCore (7 % 2 ^ 32) :=
  mixer_injective.2.2 7 [97, 98, 99] [97, 120, 99] 1 (by decide) (by decide) (by decide)
    (by decide) (by decide)
    (fun j hj => by
      match j with
      | 0 => rfl
      | 1 => exact absurd rfl hj
      | 2 => rfl
      | (n + 3) => rfl)


/-! ## Reads stay in bounds -/

theorem getElem?_drop_cons (chars : List Nat) (i : Nat) (hi : i < chars.length) :
    chars[i]? = some chars[i] ∧ chars.drop i = chars[i] :: chars.drop (i + 1) :=
  ⟨List.getElem?_eq_getElem hi, List.drop_eq_getElem_cons hi⟩

theorem hashLoopChecked_eq (chars : List Nat) (remaining running_hash i : Nat)
    (h : i + remaining = chars.length) :
    hashLoopChecked chars remaining running_hash i
      = some (hashLoop running_hash (chars.drop i)) := by
  induction remaining generalizing running_hash i with
  | zero =>
    have hi : chars.length ≤ i := by omega
    rw [List.drop_eq_nil_of_le hi]
    rfl
  | succ n ih =>
    obtain ⟨h1, h2⟩ := getElem?_drop_cons chars i (by omega)
    simp only [hashLoopChecked, h1, h2, hashLoop]
    exact ih _ _ (by omega)

theorem integerIndexLoopChecked_eq (L : Layout) (chars : List Nat) (remaining : Nat)
    (type : HashFieldType) (running_hash index_big i : Nat)
    (h : i + remaining = chars.length) :
    integerIndexLoopChecked L chars remaining type running_hash index_big i
      = some (integerIndexLoop L type running_hash index_big (chars.drop i)) := by
  induction remaining generalizing type running_hash index_big i with
  | zero =>
    have hi : chars.length ≤ i := by omega
    rw [List.drop_eq_nil_of_le hi]
    cases type <;> rfl
  | succ n ih =>
    obtain ⟨h1, h2⟩ := getElem?_drop_cons chars i (by omega)
    cases type
    · simp only [integerIndexLoopChecked, h1, h2, integerIndexLoop]
      exact ih _ _ _ _ (by omega)
    · simp only [integerIndexLoopChecked, h1, h2, integerIndexLoop]
      cases hc : TryAddIntegerIndexChar L index_big chars[i] with
      | none => exact ih _ _ _ _ (by omega)
      | some index_big' => exact ih _ _ _ _ (by omega)

theorem arrayIndexLoopChecked_eq (L : Layout) (chars : List Nat) (length remaining : Nat)
    (index i : Nat) (h : i + remaining = chars.length) :
    arrayIndexLoopChecked L chars length remaining index i
      = some (arrayIndexLoop L length index (chars.drop i)) := by
  induction remaining generalizing index i with
  | zero =>
    have hi : chars.length ≤ i := by omega
    rw [List.drop_eq_nil_of_le hi]
    rfl
  | succ n ih =>
    obtain ⟨h1, h2⟩ := getElem?_drop_cons chars i (by omega)
    simp only [arrayIndexLoopChecked, h1, h2, arrayIndexLoop]
    cases hc : TryAddArrayIndexChar index chars[i] with
    | none => rfl
    | some index' => exact ih _ _ (by omega)

theorem nonIndexHashChecked_eq (L : Layout) (chars : List Nat) (seed : Nat) :
    nonIndexHashChecked L chars chars.length seed = some (nonIndexHash L chars seed) := by
  unfold nonIndexHashChecked nonIndexHash
  rw [hashLoopChecked_eq chars chars.length _ 0 (by omega), List.drop_zero]

theorem afterIndexBlockChecked_eq (L : Layout) (chars : List Nat) (seed : Nat) :
    afterIndexBlockChecked L chars chars.length seed
      = some (afterIndexBlock L chars seed) := by
  unfold afterIndexBlockChecked afterIndexBlock
  split
  · rfl
  · exact nonIndexHashChecked_eq L chars seed

theorem integerIndexHashChecked_eq (L : Layout) (chars : List Nat) (seed : Nat) :
    integerIndexHashChecked L chars chars.length seed
      = some (integerIndexHash L chars seed) := by
  unfold integerIndexHashChecked integerIndexHash
  rw [integerIndexLoopChecked_eq L chars chars.length _ _ _ 0 (by omega), List.drop_zero]
  simp only []
  split <;> rfl

/-- C14: for every buffer `chars` of exactly `length` elements, the run of
`HashSequentialString` with checked reads never reads out of range, on any path, and
produces the field that `HashSequentialString` returns. -/
theorem reads_in_bounds (L : Layout) (chars : List Nat) (length seed : Nat)
    (hlen : chars.length = length) :
    HashSequentialStringChecked L chars length seed
      = some (HashSequentialString L chars seed) := by
  subst hlen
  cases chars with
  | nil =>
    unfold HashSequentialStringChecked
    rw [if_neg (by simp)]
    exact nonIndexHashChecked_eq L [] seed
  | cons c0 rest =>
    unfold HashSequentialStringChecked HashSequentialString
    have h1 : (c0 :: rest).length ≥ 1 := by simp
    have hloop : arrayIndexLoopChecked L (c0 :: rest) (c0 :: rest).length
        ((c0 :: rest).length - 1) (c0 - 48) 1
        = some (arrayIndexLoop L (c0 :: rest).length (c0 - 48) rest) := by
      rw [arrayIndexLoopChecked_eq L (c0 :: rest) _ _ _ 1 (by simp; omega)]
      rfl
    have htail : (if (L.V8_HOST_ARCH_64_BIT &&
          decide ((c0 :: rest).length ≤ L.kMaxIntegerIndexSize)) = true then
          integerIndexHashChecked L (c0 :: rest) (c0 :: rest).length seed
        else afterIndexBlockChecked L (c0 :: rest) (c0 :: rest).length seed)
        = some (if (L.V8_HOST_ARCH_64_BIT &&
            decide ((c0 :: rest).length ≤ L.kMaxIntegerIndexSize)) = true then
            integerIndexHash L (c0 :: rest) seed
          else afterIndexBlock L (c0 :: rest) seed) := by
      split
      · exact integerIndexHashChecked_eq L (c0 :: rest) seed
      · exact afterIndexBlockChecked_eq L (c0 :: rest) seed
    simp only [if_pos h1, List.getElem?_cons_zero, hloop]
    by_cases hcond : (IsDecimalDigit c0 && ((c0 :: rest).length == 1 || c0 != 48)) = true
    · simp only [hcond, if_true]
      by_cases hle : (c0 :: rest).length ≤ L.kMaxArrayIndexSize
      · simp only [if_pos hle]
        cases hres : arrayIndexLoop L (c0 :: rest).length (c0 - 48) rest with
        | some field => rfl
        | none => exact htail
      · simp only [if_neg hle]
        exact htail
    · simp only [hcond, Bool.false_eq_true, if_false]
      exact afterIndexBlockChecked_eq L (c0 :: rest) seed

/-- C14, witness: the string `"4294967295"`, which goes through the array-index loop and
the integer-index loop, with `length = 10`; with `length = 11` over the same buffer the
checked run does read out of range. -/
theorem reads_in_bounds_witness :
    [52, 50, 57, 52, 57, 54, 55, 50, 57, 53].length = 10 ∧
      HashSequentialStringChecked x64Layout [52, 50, 57, 52, 57, 54, 55, 50, 57, 53] 10 4
        = some (HashSequentialString x64Layout [52, 50, 57, 52, 57, 54, 55, 50, 57, 53] 4) ∧
      HashSequentialStringChecked x64Layout [52, 50, 57, 52, 57, 54, 55, 50, 57, 53] 11 4
        = none :=
  ⟨by decide,
    reads_in_bounds x64Layout [52, 50, 57, 52, 57, 54, 55, 50, 57, 53] 10 4 (by decide),
    by decide⟩

/-! ## Narrow and wide characters -/

theorem asUchar_lt (T : CharType) (raw : Int) : T.asUchar raw < 2 ^ T.bits := by
  unfold CharType.asUchar
  have hpos : (0 : Int) < (2 : Int) ^ T.bits := by positivity
  have h1 := Int.emod_nonneg raw (ne_of_gt hpos)
  have h2 := Int.emod_lt_of_pos raw hpos
  have h3 : ((raw % (2 : Int) ^ T.bits).toNat : Int) = raw % (2 : Int) ^ T.bits :=
    Int.toNat_of_nonneg h1
  have h4 : ((raw % (2 : Int) ^ T.bits).toNat : Int) < ((2 ^ T.bits : Nat) : Int) := by
    rw [h3]
    push_cast
    exact h2
  exact_mod_cast h4

theorem asUchar_lt_16 (T : CharType) (hT : T.bits ≤ 16) (raw : Int) :
    T.asUchar raw < 2 ^ 16 :=
  Nat.lt_of_lt_of_le (asUchar_lt T raw) (Nat.pow_le_pow_right (by decide) hT)

theorem toUint16_asUchar (T : CharType) (hT : T.bits ≤ 16) (raw : Int) :
    toUint16 (T.asUchar raw) = T.asUchar raw :=
  Nat.mod_eq_of_lt (asUchar_lt_16 T hT raw)

theorem hashLoopT_eq (T : CharType) (hT : T.bits ≤ 16) (running_hash : Nat)
    (chars_raw : List Int) :
    hashLoopT T running_hash chars_raw = hashLoop running_hash (chars_raw.map T.asUchar) := by
  induction chars_raw generalizing running_hash with
  | nil => rfl
  | cons raw rest ih =>
    simp only [hashLoopT, List.map_cons, hashLoop, toUint16_asUchar T hT, ih]

theorem integerIndexLoopT_eq (T : CharType) (hT : T.bits ≤ 16) (L : Layout)
    (type : HashFieldType) (running_hash index_big : Nat) (chars_raw : List Int) :
    integerIndexLoopT T L type running_hash index_big chars_raw
      = integerIndexLoop L type running_hash index_big (chars_raw.map T.asUchar) := by
  induction chars_raw generalizing type running_hash index_big with
  | nil => cases type <;> rfl
  | cons raw rest ih =>
    cases type
    · simp only [integerIndexLoopT, List.map_cons, integerIndexLoop, toUint16_asUchar T hT, ih]
    · simp only [integerIndexLoopT, List.map_cons, integerIndexLoop, toUint16_asUchar T hT]
      cases hc : TryAddIntegerIndexChar L index_big (T.asUchar raw) with
      | none => exact ih _ _ _
      | some index_big' => exact ih _ _ _

theorem arrayIndexLoopT_eq (T : CharType) (L : Layout) (length index : Nat)
    (chars_raw : List Int) :
    arrayIndexLoopT T L length index chars_raw
      = arrayIndexLoop L length index (chars_raw.map T.asUchar) := by
  induction chars_raw generalizing index with
  | nil => rfl
  | cons raw rest ih =>
    simp only [arrayIndexLoopT, List.map_cons, arrayIndexLoop]
    cases hc : TryAddArrayIndexChar index (T.asUchar raw) with
    | none => rfl
    | some index' => exact ih _

theorem HashSequentialStringT_eq (T : CharType) (hT : T.bits ≤ 16) (L : Layout)
    (chars_raw : List Int) (seed : Nat) :
    HashSequentialStringT T L chars_raw seed
      = HashSequentialString L (chars_raw.map T.asUchar) seed := by
  have hnon : ∀ l : List Int,
      nonIndexHashT T L l seed = nonIndexHash L (l.map T.asUchar) seed := by
    intro l
    unfold nonIndexHashT nonIndexHash
    rw [hashLoopT_eq T hT]
  have hafter : ∀ l : List Int,
      afterIndexBlockT T L l seed = afterIndexBlock L (l.map T.asUchar) seed := by
    intro l
    unfold afterIndexBlockT afterIndexBlock
    rw [List.length_map, hnon]
  have hint : ∀ l : List Int,
      integerIndexHashT T L l seed = integerIndexHash L (l.map T.asUchar) seed := by
    intro l
    unfold integerIndexHashT integerIndexHash
    rw [integerIndexLoopT_eq T hT]
  cases chars_raw with
  | nil => exact hnon []
  | cons raw0 rest =>
    have h0 := asUchar_lt_16 T hT raw0
    have hidx : (T.asUchar raw0 - 48) % 2 ^ 32 = T.asUchar raw0 - 48 :=
      Nat.mod_eq_of_lt (by omega)
    have e1 := hint (raw0 :: rest)
    have e2 := hafter (raw0 :: rest)
    simp only [List.map_cons] at e1 e2
    unfold HashSequentialStringT HashSequentialString
    simp only [List.map_cons, List.length_cons, List.length_map, hidx, arrayIndexLoopT_eq,
      e1, e2]

theorem asUchar_store_unsigned (bits unit : Nat) (h : unit < 2 ^ bits) :
    CharType.asUchar ⟨bits, false⟩ (CharType.store ⟨bits, false⟩ unit) = unit := by
  unfold CharType.asUchar CharType.store
  simp only [Bool.false_and, Bool.false_eq_true, if_false]
  have h1 : ((unit : Int) % (2 : Int) ^ bits) = ((unit % 2 ^ bits : Nat) : Int) := by
    push_cast
    rfl
  rw [h1, Int.toNat_ofNat, Nat.mod_eq_of_lt h]

theorem asUchar_store_signedChar8 (unit : Nat) (h : unit < 2 ^ 8) :
    signedChar8.asUchar (signedChar8.store unit) = unit := by
  unfold CharType.asUchar CharType.store signedChar8
  simp only [Bool.true_and, decide_eq_true_eq]
  norm_num at h ⊢
  split <;> omega

/-- C16: for every sequence of 8-bit code units and every seed, the instantiation of
`HashSequentialString` at an 8-bit character type, unsigned or signed, over that sequence
returns the same field as the instantiation at `uint16_t` over the sequence obtained by
zero-extending each code unit; and the instantiation at `uint16_t` hashes every 16-bit
sequence by the unsigned values of its code units. -/
theorem narrow_wide_agree (L : Layout) (chars : List (Fin (2 ^ 8))) (seed : Nat) :
    HashSequentialStringT unsignedChar8 L (chars.map (fun c => unsignedChar8.store c.val)) seed
        = HashSequentialStringT unsignedChar16 L
            ((chars.map zeroExtend).map (fun c => unsignedChar16.store c.val)) seed ∧
      HashSequentialStringT signedChar8 L (chars.map (fun c => signedChar8.store c.val)) seed
        = HashSequentialStringT unsignedChar16 L
            ((chars.map zeroExtend).map (fun c => unsignedChar16.store c.val)) seed ∧
      ∀ wide : List (Fin (2 ^ 16)),
        HashSequentialStringT unsignedChar16 L
            (wide.map (fun c => unsignedChar16.store c.val)) seed
          = HashSequentialString L (wide.map (fun c => c.val)) seed := by
  have hwide : ∀ wide : List (Fin (2 ^ 16)),
      HashSequentialStringT unsignedChar16 L
          (wide.map (fun c => unsignedChar16.store c.val)) seed
        = HashSequentialString L (wide.map (fun c => c.val)) seed := by
    intro wide
    rw [HashSequentialStringT_eq unsignedChar16 (by decide), List.map_map]
    congr 1
    apply List.map_congr_left
    intro c _
    exact asUchar_store_unsigned 16 c.val c.isLt
  have hzext : (chars.map zeroExtend).map (fun c => c.val) = chars.map (fun c => c.val) := by
    rw [List.map_map]
    rfl
  refine ⟨?_, ?_, hwide⟩
  · rw [hwide, hzext, HashSequentialStringT_eq unsignedChar8 (by decide), List.map_map]
    congr 1
    apply List.map_congr_left
    intro c _
    exact asUchar_store_unsigned 8 c.val c.isLt
  · rw [hwide, hzext, HashSequentialStringT_eq signedChar8 (by decide), List.map_map]
    congr 1
    apply List.map_congr_left
    intro c _
    exact asUchar_store_signedChar8 c.val c.isLt

/-- C16, witness: the code units `0xE9 '1'`, held as `-23, 49` in a signed 8-bit type, hash
to the same field as the 16-bit sequence `0x00E9 '1'`, on the 64-bit layout. -/
theorem narrow_wide_agree_witness :
    signedChar8.store 233 = -23 ∧ unsignedChar16.store 233 = 233 ∧
      HashSequentialStringT signedChar8 x64Layout
          (([⟨233, by decide⟩, ⟨49, by decide⟩] : List (Fin (2 ^ 8))).map
            (fun c => signedChar8.store c.val)) 7
        = HashSequentialStringT unsignedChar16 x64Layout
            ((([⟨233, by decide⟩, ⟨49, by decide⟩] : List (Fin (2 ^ 8))).map zeroExtend).map
              (fun c => unsignedChar16.store c.val)) 7 :=
  ⟨by decide, by decide,
    (narrow_wide_agree x64Layout [⟨233, by decide⟩, ⟨49, by decide⟩] 7).2.1⟩

end V8
